import Mathlib

/-!
Verification development for the event-intelligence-platform repository.

The Python sources under `Backend/engines` and `Backend/services` are shallowly
embedded below.  Text is modelled as `List Char`; Python `datetime` values as a
`PyDateTime` record ordered lexicographically; floating-point scores as `ℚ`
(the scoring code only adds fixed decimal constants and clamps with `min`, so
the rational model is order- and value-faithful for every property stated
here); network access is modelled by oracle functions supplied as parameters.
Python functions that can raise are embedded with `Option`, `none` standing
for a raised exception.
-/

/-! ### Text helpers (Python string primitives) -/

/-- Lowercase every character, as Python `str.lower` does on ASCII text. -/
def toLowerL (s : List Char) : List Char := s.map Char.toLower

/-- Does `pat` occur at the very start of `s`?  Helper for substring search. -/
def isSubAt : List Char → List Char → Bool
  | [], _ => true
  | _ :: _, [] => false
  | a :: p, b :: s => a == b && isSubAt p s

/-- Python `pat in hay` substring test. -/
def containsL : List Char → List Char → Bool
  | [], pat => pat.isEmpty
  | c :: t, pat => isSubAt pat (c :: t) || containsL t pat

/-- Python `str.strip()`: drop leading and trailing whitespace. -/
def stripL (s : List Char) : List Char :=
  ((s.dropWhile Char.isWhitespace).reverse.dropWhile Char.isWhitespace).reverse

/-- Split at the first occurrence of `sep`, returning the parts before and
after it, or `none` when `sep` does not occur. -/
def splitFirst (sep : List Char) : List Char → Option (List Char × List Char)
  | [] => if isSubAt sep [] then some ([], []) else none
  | c :: t =>
    if isSubAt sep (c :: t) then some ([], (c :: t).drop sep.length)
    else (splitFirst sep t).map (fun p => (c :: p.1, p.2))

/-- Python `s.split(sep)[0]`: the part before the first occurrence of `sep`,
or all of `s` when `sep` does not occur. -/
def beforeFirst (sep : List Char) (s : List Char) : List Char :=
  match splitFirst sep s with
  | some (a, _) => a
  | none => s

/-- Auxiliary scanner for whitespace splitting. -/
def splitWsAux : List Char → List Char → List (List Char)
  | [], acc => if acc.isEmpty then [] else [acc.reverse]
  | c :: t, acc =>
    if c.isWhitespace then
      if acc.isEmpty then splitWsAux t [] else acc.reverse :: splitWsAux t []
    else splitWsAux t (c :: acc)

/-- Python `str.split()` with no argument: split on whitespace runs, no empty
pieces. -/
def splitWs (s : List Char) : List (List Char) := splitWsAux s []

/-- Python word character for the `\w` regex class (ASCII model):
alphanumeric or underscore. -/
def isWordChar (c : Char) : Bool := c.isAlphanum || c == '_'

/-- Collapse whitespace runs to single spaces and strip the ends; this is the
composition `re.sub(r'\s+', ' ', s).strip()` used throughout the sources. -/
def collapseWsStrip (s : List Char) : List Char :=
  List.intercalate [' '] (splitWs s)

/-- The apostrophe character, written by code point. -/
def aposC : Char := Char.ofNat 39

/-- First 1–2 digit number in a string: the semantics of
`re.search(r'(\d{1,2})', s)` — scan to the first digit and greedily take a
second one when present. -/
def firstDigits : List Char → Option Nat
  | [] => none
  | c :: t =>
    if c.isDigit then
      some (match t with
        | d :: _ =>
          if d.isDigit then (c.toNat - 48) * 10 + (d.toNat - 48)
          else c.toNat - 48
        | [] => c.toNat - 48)
    else firstDigits t

/-! ### Python datetime model -/

/-- A Python `datetime`, reduced to the fields this code base compares:
year, month, day and the time of day in minutes (rational, so that any
finer-grained instant is representable).  Python compares datetimes
lexicographically by component, which `dtLt` mirrors. -/
structure PyDateTime where
  year : Nat
  month : Nat
  day : Nat
  minute : ℚ
deriving DecidableEq, Repr

/-- Lexicographic strict order on datetimes (Python `<`). -/
def dtLt (a b : PyDateTime) : Prop :=
  a.year < b.year ∨ (a.year = b.year ∧
    (a.month < b.month ∨ (a.month = b.month ∧
      (a.day < b.day ∨ (a.day = b.day ∧ a.minute < b.minute)))))

instance (a b : PyDateTime) : Decidable (dtLt a b) := by
  unfold dtLt; exact inferInstance

/-- Lexicographic order on datetimes (Python `<=`). -/
def dtLe (a b : PyDateTime) : Prop := dtLt a b ∨ a = b

instance (a b : PyDateTime) : Decidable (dtLe a b) := by
  unfold dtLe; exact inferInstance

/-- Gregorian leap year test, as implemented by Python `datetime`. -/
def isLeap (y : Nat) : Bool := (y % 4 == 0 && y % 100 != 0) || y % 400 == 0

/-- Days in a month of a given year. -/
def daysInMonth (y m : Nat) : Nat :=
  if m = 2 then (if isLeap y then 29 else 28)
  else if m = 4 ∨ m = 6 ∨ m = 9 ∨ m = 11 then 30 else 31

/-- Would `datetime(y, m, d)` construct successfully? -/
def validDate (y m d : Nat) : Bool :=
  decide (1 ≤ m) && decide (m ≤ 12) && decide (1 ≤ d) && decide (d ≤ daysInMonth y m)

/-- `datetime(y, m, d)` at midnight; `none` models the `ValueError` raised on
an invalid date (the callers catch it and yield `None`). -/
def mkDate (y m d : Nat) : Option PyDateTime :=
  if validDate y m d then some ⟨y, m, d, 0⟩ else none

/-! ### Rate limiter (`services/rate_limiter.py`, class `TwitterRateLimiter`)

Time is modelled in minutes on the rational line: `now + timedelta(minutes=w)`
becomes `now + w`, and `datetime` comparisons become rational comparisons,
which is order-faithful.  The limiter's mutex serialises calls, so the
sequential state-passing model below captures its observable behaviour. -/

/-- One per-endpoint window of `TwitterRateLimiter.rate_limits`. -/
structure LimitInfo where
  limit : Nat
  remaining : Nat
  resetTime : Option ℚ
  windowMinutes : ℚ
deriving DecidableEq, Repr

/-- The limiter state: the `rate_limits` dictionary. -/
def RLState : Type := List (String × LimitInfo)

/-- Endpoint keys configured by `setup_advanced_limits`. -/
def searchRecentKey : String := ("search_recent")

/-- The posting endpoint key. -/
def postTweetKey : String := ("post_tweet")

/-- The retweet endpoint key. -/
def retweetKey : String := ("retweet")

/-- `setup_advanced_limits`: the initial windows. -/
def setupAdvancedLimits : RLState :=
  [(searchRecentKey, ⟨60, 60, none, 15⟩),
   (postTweetKey, ⟨100, 100, none, 1440⟩),
   (retweetKey, ⟨5, 5, none, 15⟩)]

/-- Dictionary lookup `self.rate_limits[endpoint]` (with membership test). -/
def lookupEp (st : RLState) (ep : String) : Option LimitInfo :=
  (List.find? (fun p => decide (p.1 = ep)) st).map Prod.snd

/-- Write back the (mutated) window for `ep`. -/
def setEp (st : RLState) (ep : String) (li : LimitInfo) : RLState :=
  st.map (fun p => if p.1 = ep then (p.1, li) else p)

/-- `TwitterRateLimiter.check_rate_limit(endpoint)` at instant `now`:
returns the permission decision and the successor state. -/
def checkRateLimit (st : RLState) (ep : String) (now : ℚ) : Bool × RLState :=
  match lookupEp st ep with
  | none => (true, st)
  | some li =>
    let li1 := match li.resetTime with
      | none => { li with resetTime := some (now + li.windowMinutes) }
      | some _ => li
    let li2 := match li1.resetTime with
      | some r =>
        if now > r then
          { li1 with remaining := li1.limit,
                     resetTime := some (now + li1.windowMinutes) }
        else li1
      | none => li1
    if li2.remaining > 0 then
      (true, setEp st ep { li2 with remaining := li2.remaining - 1 })
    else
      (false, setEp st ep li2)

/-- `n` successive `check_rate_limit('search_recent')` calls at one instant
`t`, starting from a fresh limiter; returns the final state and the list of
decisions in call order. -/
def searchCallsAt (t : ℚ) : Nat → RLState × List Bool
  | 0 => (setupAdvancedLimits, [])
  | n + 1 =>
    let p := searchCallsAt t n
    let r := checkRateLimit p.1 searchRecentKey t
    (r.2, p.2 ++ [r.1])

/-- The limiter state after `k ≥ 1` search acquisitions at instant `t`:
the search window holds `60 - k` permits and resets at `t + 15`. -/
def searchStateAfter (t : ℚ) (k : Nat) : RLState :=
  [(searchRecentKey, ⟨60, 60 - k, some (t + 15), 15⟩),
   (postTweetKey, ⟨100, 100, none, 1440⟩),
   (retweetKey, ⟨5, 5, none, 15⟩)]

/-! ### Event engine data model (`engines/event_engine.py`) -/

/-- The `ResearchEvent` dataclass.  `hype_score` and `confidence_score` are
modelled in `ℚ`. -/
structure ResearchEvent where
  event_name : List Char
  exact_date : List Char
  exact_venue : List Char
  location : List Char
  category : List Char
  confidence_score : ℚ
  source_url : List Char
  posted_by : List Char
  hype_score : ℚ
  start_datetime : Option PyDateTime := none
deriving DecidableEq, Repr

/-! ### Date parsing (`_parse_date_string`, `_parse_serpapi_date`) -/

/-- The month-token dictionary of `_parse_date_string`, in its insertion
order (Python dicts iterate in insertion order, and the code takes the first
token that occurs as a substring). -/
def monthsTable : List (List Char × Nat) :=
  [(("jan").toList, 1), (("january").toList, 1),
   (("feb").toList, 2), (("february").toList, 2),
   (("mar").toList, 3), (("march").toList, 3),
   (("apr").toList, 4), (("april").toList, 4),
   (("may").toList, 5),
   (("jun").toList, 6), (("june").toList, 6),
   (("jul").toList, 7), (("july").toList, 7),
   (("aug").toList, 8), (("august").toList, 8),
   (("sep").toList, 9), (("sept").toList, 9), (("september").toList, 9),
   (("oct").toList, 10), (("october").toList, 10),
   (("nov").toList, 11), (("november").toList, 11),
   (("dec").toList, 12), (("december").toList, 12)]

/-- The three-letter month list used by the comma-preprocessing test. -/
def monthAbbrevs : List (List Char) :=
  [("jan").toList, ("feb").toList, ("mar").toList, ("apr").toList,
   ("may").toList, ("jun").toList, ("jul").toList, ("aug").toList,
   ("sep").toList, ("oct").toList, ("nov").toList, ("dec").toList]

/-- The first month token (in dictionary order) occurring in `s`
(`s` is expected lowercased, as at the call site). -/
def findMonth (s : List Char) : Option Nat :=
  (monthsTable.find? (fun p => containsL s p.1)).map Prod.snd

/-- The comma-preprocessing of `_parse_date_string`: when the cleaned string
holds a comma and a month abbreviation, keep only the segment between the
first and second comma, cut at the first en-dash / `PM` / `AM`, and strip. -/
def commaPreprocess (clean0 : List Char) : List Char :=
  if containsL clean0 [','] && monthAbbrevs.any (fun m => containsL (toLowerL clean0) m) then
    match splitFirst [','] clean0 with
    | some (_, rest) =>
      stripL (beforeFirst (("AM").toList)
        (beforeFirst (("PM").toList) (beforeFirst ['–'] (beforeFirst [','] rest))))
    | none => clean0
  else clean0

/-- `SmartEventEngine._parse_date_string(date_str)` with the ambient clock
`today` (the two `datetime.now()` calls, assumed to fall at one instant).
Finds a month token and the first 1–2 digit day, defaults the year to the
current one and advances it when the proposed date is already past;
`none` models every `return None` and every caught exception. -/
def parseDateString (today : PyDateTime) (dateStr : List Char) : Option PyDateTime :=
  if dateStr = [] then none
  else
    let clean := commaPreprocess (stripL dateStr)
    match findMonth (toLowerL clean) with
    | none => none
    | some m =>
      match firstDigits clean with
      | none => none
      | some d =>
        match mkDate today.year m d with
        | none => none
        | some proposed =>
          if dtLt proposed today then mkDate (today.year + 1) m d
          else some proposed

/-! A small reader for the quasi-JSON date dictionaries
(`str(dict)` payloads such as `{'when': 'Nov 15', ...}`).  The source
replaces single quotes by double quotes and calls `json.loads`; the flat
string-to-string objects this code targets are parsed below, and any other
shape is `none`, which the source treats identically to a JSON failure
(fall through to plain-string parsing). -/

/-- Skip whitespace. -/
def skipWsJ (s : List Char) : List Char := s.dropWhile Char.isWhitespace

/-- Read the body of a double-quoted string (opening quote consumed),
returning content and remainder; escapes are out of scope (`none`). -/
def readStrBody : List Char → Option (List Char × List Char)
  | [] => none
  | c :: t =>
    if c == '"' then some ([], t)
    else if c == '\\' then none
    else (readStrBody t).map (fun p => (c :: p.1, p.2))

/-- Read a double-quoted string. -/
def readStr (s : List Char) : Option (List Char × List Char) :=
  match s with
  | '"' :: t => readStrBody t
  | _ => none

/-- Read the members of a flat string-valued object, up to and including the
closing brace; fuelled recursion. -/
def jsonMembersAux : Nat → List Char → Option (List (List Char × List Char) × List Char)
  | 0, _ => none
  | fuel + 1, s =>
    match readStr (skipWsJ s) with
    | none => none
    | some (k, r1) =>
      match skipWsJ r1 with
      | ':' :: r2 =>
        match readStr (skipWsJ r2) with
        | none => none
        | some (v, r3) =>
          match skipWsJ r3 with
          | ',' :: r4 => (jsonMembersAux fuel r4).map (fun p => ((k, v) :: p.1, p.2))
          | '}' :: r4 => some ([(k, v)], r4)
          | _ => none
      | _ => none

/-- Parse a flat `{"k": "v", ...}` object covering the whole input. -/
def jsonFlat (s : List Char) : Option (List (List Char × List Char)) :=
  match skipWsJ s with
  | '{' :: r =>
    (match skipWsJ r with
     | '}' :: r2 => if skipWsJ r2 = [] then some [] else none
     | _ =>
       match jsonMembersAux (r.length + 1) r with
       | some (kvs, rest) => if skipWsJ rest = [] then some kvs else none
       | none => none)
  | _ => none

/-- `dict.get(k)` on the decoded object: the last binding wins, as in
`json.loads`. -/
def jlookup (kvs : List (List Char × List Char)) (k : List Char) : Option (List Char) :=
  (List.find? (fun p => decide (p.1 = k)) kvs.reverse).map Prod.snd

/-- Python `a or b` on two optional strings (empty strings are falsy). -/
def pyOrStr (a b : Option (List Char)) : Option (List Char) :=
  match a with
  | some v => if v ≠ [] then some v else (match b with
      | some w => if w ≠ [] then some w else none
      | none => none)
  | none => match b with
      | some w => if w ≠ [] then some w else none
      | none => none

/-- `SmartEventEngine._parse_serpapi_date(date_info)` for string payloads:
empty is `None`; a string opening with a brace is decoded as a quasi-JSON
dictionary and its truthy `start_date`-else-`when` value parsed; on any
failure the raw string itself is parsed. -/
def parseSerpapiDate (today : PyDateTime) (s : List Char) : Option PyDateTime :=
  if s = [] then none
  else if s.head? = some '{' then
    match jsonFlat (s.map (fun c => if c == aposC then '"' else c)) with
    | some kvs =>
      (match pyOrStr (jlookup kvs (("start_date").toList)) (jlookup kvs (("when").toList)) with
       | some v => parseDateString today v
       | none => parseDateString today s)
    | none => parseDateString today s
  else parseDateString today s

/-- The strict date-range acceptance test of
`_fetch_events_with_date_filter`: the record's date parses and falls within
the inclusive `[startDt, endDt]` range. -/
def dateAcceptB (startDt endDt today : PyDateTime) (dateStr : List Char) : Bool :=
  match parseSerpapiDate today dateStr with
  | some dt => decide (dtLe startDt dt) && decide (dtLe dt endDt)
  | none => false

/-! ### Event validation, deduplication key and hype scoring -/

/-- The generic placeholder names rejected by `_is_valid_event`. -/
def genericNames : List (List Char) :=
  [("event").toList, ("events").toList, ("unknown").toList, ("unknown event").toList]

/-- `SmartEventEngine._is_valid_event(event)`. -/
def isValidEvent (e : ResearchEvent) : Bool :=
  if e.event_name = [] ∨ (stripL e.event_name).length < 3 then false
  else if toLowerL e.event_name ∈ genericNames then false
  else true

/-- `SmartEventEngine._create_event_key(event)`: lowercase the name, delete
punctuation (`re.sub(r'[^\w\s]', '', ·)`), collapse whitespace, and append
the first whitespace token of the display date (`"nodate"` for an empty
date).  A non-empty all-whitespace date raises `IndexError` in Python; that
point is unreachable from the date-filtered pipeline (acceptance requires a
month token in the date) and is mapped to the empty token here. -/
def createEventKey (e : ResearchEvent) : List Char :=
  let normalized := collapseWsStrip
    ((toLowerL e.event_name).filter (fun c => isWordChar c || c.isWhitespace))
  let datePart :=
    if e.exact_date = [] then ("nodate").toList
    else ((splitWs e.exact_date).headD [])
  normalized ++ '_' :: datePart

/-- The hype vocabulary of `_calculate_hype_score`. -/
def hypeKeywords : List (List Char) :=
  [("festival").toList, ("concert").toList, ("championship").toList,
   ("tournament").toList, ("expo").toList, ("summit").toList,
   ("conference").toList, ("awards").toList, ("gala").toList,
   ("premiere").toList]

/-- The prestige venue tokens of `_calculate_hype_score`. -/
def prestigiousVenues : List (List Char) :=
  [("stadium").toList, ("arena").toList, ("center").toList,
   ("garden").toList, ("hall").toList]

/-- The category weight table of `_calculate_hype_score`. -/
def categoryWeights : List (List Char × ℚ) :=
  [(("music").toList, 3/10), (("festival").toList, 4/10),
   (("sports").toList, 35/100), (("conference").toList, 2/10),
   (("arts").toList, 25/100), (("food").toList, 15/100)]

/-- `SmartEventEngine._calculate_hype_score(event)`:
`+0.1` per hype keyword in the name, `+0.15` per prestige token in the
venue, plus the category weight (default `0.1`), clamped to `1.0`. -/
def calculateHypeScore (e : ResearchEvent) : ℚ :=
  let nameLower := toLowerL e.event_name
  let s1 := hypeKeywords.foldl
    (fun s k => if containsL nameLower k then s + 1/10 else s) 0
  let venueLower := toLowerL e.exact_venue
  let s2 := prestigiousVenues.foldl
    (fun s v => if containsL venueLower v then s + 15/100 else s) s1
  let s3 := s2 +
    (((categoryWeights.find? (fun p => decide (p.1 = e.category))).map Prod.snd).getD (1/10))
  min 1 s3

/-- The in-place update `event.hype_score = self._calculate_hype_score(event)`
performed by `_score_events_by_hype` on every accumulated event. -/
def updateHype (e : ResearchEvent) : ResearchEvent :=
  { e with hype_score := calculateHypeScore e }

/-! ### Stable descending sort

Python `list.sort(key=…, reverse=True)` is a stable sort: items are ordered
by descending key and ties keep their original relative order.  `sortDesc`
below is an insertion sort with exactly that extensional behaviour (an
incoming earlier element passes over strictly greater keys only, so it lands
before any tie), which is proved in the sort lemmas further down. -/

/-- Insert `x` before the first element whose key is not greater. -/
def insDesc (f : α → ℚ) (x : α) : List α → List α
  | [] => [x]
  | y :: ys => if f x ≥ f y then x :: y :: ys else y :: insDesc f x ys

/-- Stable descending insertion sort by the key `f`. -/
def sortDesc (f : α → ℚ) : List α → List α
  | [] => []
  | x :: xs => insDesc f x (sortDesc f xs)

/-! ### The event collection loop and discovery -/

/-- An event provider oracle: for a query string, the parse results of the
records SerpAPI returned (`None` entries are parse failures).  This stands
for the network side of `_fetch_serpapi_events`; HTTP failures and missing
result sections are the empty list. -/
def EvProvider : Type := List Char → List (Option ResearchEvent)

/-- `SmartEventEngine._fetch_serpapi_events(query, limit)`: take `limit` raw
records, drop parse failures, keep only valid events. -/
def fetchSerpapiEvents (P : EvProvider) (q : List Char) (limit : Nat) : List ResearchEvent :=
  (((P q).take limit).filterMap id).filter isValidEvent

/-- Accumulator of `_fetch_events_with_date_filter`: the events kept so far
and the set (as a list) of dedup keys already seen. -/
structure EvState where
  events : List ResearchEvent
  seen : List (List Char)
deriving Repr

/-- Processing of one fetched record inside the query loop: parse its date,
require it in range, and keep it only under a fresh dedup key. -/
def addEvent (startDt endDt today : PyDateTime) (s : EvState) (e : ResearchEvent) : EvState :=
  if dateAcceptB startDt endDt today e.exact_date then
    if createEventKey e ∈ s.seen then s
    else ⟨s.events ++ [e], createEventKey e :: s.seen⟩
  else s

/-- A record of one provider query that was actually issued: the query
string, how many unique events had been accumulated when it was issued, and
the per-query record limit passed down. -/
structure QueryLog where
  query : List Char
  countBefore : Nat
  perQuery : Nat
deriving DecidableEq, Repr

/-- `SmartEventEngine._fetch_events_with_date_filter(queries, …)`: walk the
query list, stopping as soon as `2 * max_results` events are accumulated;
each issued query fetches up to 10 records which are date-filtered and
deduplicated in order.  Also returns the trace of issued queries. -/
def fetchEventsLoop (P : EvProvider) (startDt endDt today : PyDateTime) (maxResults : Nat) :
    List (List Char) → EvState → EvState × List QueryLog
  | [], s => (s, [])
  | q :: rest, s =>
    if s.events.length ≥ maxResults * 2 then (s, [])
    else
      let fetched := fetchSerpapiEvents P q 10
      let s1 := fetched.foldl (addEvent startDt endDt today) s
      let r := fetchEventsLoop P startDt endDt today maxResults rest s1
      (r.1, ⟨q, s.events.length, 10⟩ :: r.2)

/-- The events accumulated by a discovery run. -/
def collectedEvents (P : EvProvider) (queries : List (List Char))
    (startDt endDt today : PyDateTime) (maxResults : Nat) : List ResearchEvent :=
  (fetchEventsLoop P startDt endDt today maxResults queries ⟨[], []⟩).1.events

/-- The trace of queries a discovery run issued. -/
def evTrace (P : EvProvider) (queries : List (List Char))
    (startDt endDt today : PyDateTime) (maxResults : Nat) : List QueryLog :=
  (fetchEventsLoop P startDt endDt today maxResults queries ⟨[], []⟩).2

/-- All (valid) records the provider produced over the issued queries. -/
def evProduced (P : EvProvider) (queries : List (List Char))
    (startDt endDt today : PyDateTime) (maxResults : Nat) : List ResearchEvent :=
  ((evTrace P queries startDt endDt today maxResults).map
    (fun ql => fetchSerpapiEvents P ql.query ql.perQuery)).flatten

/-- `SmartEventEngine._score_events_by_hype(events)`: set every hype score
and sort by it, descending and stable. -/
def scoreEventsByHype (events : List ResearchEvent) : List ResearchEvent :=
  sortDesc (fun e => e.hype_score) (events.map updateHype)

/-- `SmartEventEngine.discover_events` from the point where the user date
range has been parsed (`start_dt`, `end_dt`) and the API key is present —
the earlier guard paths return `[]` outright.  Query construction
(`_build_date_specific_queries`) only assembles provider-bound query strings,
so the query list is taken as a parameter here; every claim below quantifies
over it. -/
def discoverEvents (P : EvProvider) (queries : List (List Char))
    (startDt endDt today : PyDateTime) (maxResults : Nat) : List ResearchEvent :=
  (scoreEventsByHype (collectedEvents P queries startDt endDt today maxResults)).take maxResults

/-! ### Attendee engine (`engines/attendee_engine.py`) -/

/-- The `ResearchAttendee` dataclass; `relevance_score` in `ℚ`. -/
structure ResearchAttendee where
  username : List Char
  display_name : List Char
  bio : List Char
  location : List Char
  followers_count : Nat
  verified : Bool
  confidence_score : ℚ
  engagement_type : List Char
  post_content : List Char
  post_date : List Char
  post_link : List Char
  relevance_score : ℚ
deriving DecidableEq, Repr

/-- A user object from the social provider's `includes`; optional fields
model attributes that may be `None` or absent. -/
structure TwUser where
  id : Nat
  username : List Char
  name : List Char
  verified : Option Bool
  description : Option (List Char)
  location : Option (List Char)
  followersCount : Option Nat
deriving DecidableEq, Repr

/-- A tweet from the search response; `created_at` is kept as its rendered
string. -/
structure Tweet where
  authorId : Nat
  text : List Char
  createdAt : List Char
  id : Nat
deriving DecidableEq, Repr

/-- A search response: the tweet list (empty models both `None` and empty
data, which the source treats alike) and the optional included users. -/
structure TwResponse where
  data : List Tweet
  includesUsers : Option (List TwUser)
deriving DecidableEq, Repr

/-- The social-search oracle standing for
`TwitterClient.search_recent_tweets_safe(query, max_results, …)`: `none` is
a failed, empty or rate-limit-blocked search. -/
def AtOracle : Type := List Char → Nat → Option TwResponse

/-- The stop-word set of `_extract_keywords`. -/
def stopWords : List (List Char) :=
  [("the").toList, ("and").toList, ("or").toList, ("but").toList,
   ("in").toList, ("on").toList, ("at").toList, ("to").toList,
   ("for").toList, ("of").toList, ("with").toList, ("by").toList,
   ("a").toList, ("an").toList]

/-- The keyword list comprehension inside `_extract_keywords`: strip
punctuation to spaces, split on whitespace, drop stop words and tokens of
length at most 2, lowercase the rest. -/
def keywordCandidates (eventName : List Char) : List (List Char) :=
  (splitWs (eventName.map (fun c => if isWordChar c || c.isWhitespace then c else ' '))).filterMap
    (fun w => if toLowerL w ∉ stopWords ∧ 2 < w.length then some (toLowerL w) else none)

/-- `SmartAttendeeEngine._extract_keywords(event_name)`.  When the
comprehension is empty the source falls back to
`[event_name.split()[0].lower()]`; on a name with no whitespace token that
index raises `IndexError`, modelled as `none`. -/
def extractKeywords (eventName : List Char) : Option (List (List Char)) :=
  match keywordCandidates eventName with
  | [] =>
    (match splitWs eventName with
     | [] => none
     | w :: _ => some [toLowerL w])
  | ks => some ks

/-- `SmartAttendeeEngine._clean_event_name(event_name)`: punctuation to
spaces, whitespace collapsed, with the literal fallback `"event"`. -/
def cleanEventNameAtt (eventName : List Char) : List Char :=
  if eventName = [] then ("event").toList
  else
    let cleaned := collapseWsStrip
      (eventName.map (fun c => if isWordChar c || c.isWhitespace then c else ' '))
    if cleaned = [] then ("event").toList else cleaned

/-- The double-quote character used to build quoted queries. -/
def quoteC : Char := '"'

/-- `_generate_exact_queries(event_name, event_date)`: up to four labelled
quoted queries. -/
def generateExactQueries (eventName : List Char) (eventDate : Option (List Char)) :
    List (List Char × List Char) :=
  let c := cleanEventNameAtt eventName
  let quoted := quoteC :: c ++ [quoteC]
  [(("exact").toList, quoted),
   (("event").toList, quoted ++ (" event").toList),
   (("concert").toList, quoted ++ (" concert").toList)] ++
  (match eventDate with
   | some d => [(("dated").toList, quoted ++ ' ' :: d)]
   | none => [])

/-- `_generate_smart_keyword_queries(event_name)`.  The `none` branch of
keyword extraction (a raise in Python) cannot be reached from the modelled
runs, which guard on the name having a whitespace token. -/
def generateSmartKeywordQueries (eventName : List Char) : List (List Char × List Char) :=
  match extractKeywords eventName with
  | none => []
  | some ks =>
    match ks with
    | [] => []
    | [k1] => [(("main_keyword").toList, quoteC :: k1 ++ [quoteC])]
    | k1 :: k2 :: _ =>
      [(("keywords").toList, quoteC :: (k1 ++ ' ' :: k2) ++ [quoteC]),
       (("main_keyword").toList, quoteC :: k1 ++ [quoteC])]

/-- `_generate_broad_queries(event_name)`. -/
def generateBroadQueries (eventName : List Char) : List (List Char × List Char) :=
  match extractKeywords eventName with
  | none => []
  | some ks =>
    match ks with
    | [] => []
    | [k1] =>
      [(("broad").toList, k1),
       (("very_broad").toList, k1 ++ (" OR ").toList ++ k1)]
    | k1 :: k2 :: _ =>
      [(("broad").toList, k1),
       (("very_broad").toList, k1 ++ (" OR ").toList ++ k2)]

/-- The engagement phrases of `_calculate_relevance_score_fast`. -/
def engagementPhrases : List (List Char) :=
  [("attending").toList, ("going to").toList, ("see you at").toList,
   ("excited for").toList,
   ("can").toList ++ aposC :: ("t wait for").toList]

/-- The generic event-context words of `_calculate_relevance_score_fast`. -/
def eventContextWords : List (List Char) :=
  [("event").toList, ("concert").toList, ("festival").toList,
   ("show").toList, ("party").toList]

/-- `SmartAttendeeEngine._calculate_relevance_score_fast(tweet_text,
event_name)`: `+0.6` for a verbatim case-folded name match, up to `+0.3` for
keyword overlap, `+0.1` for one engagement phrase, `+0.05` for one
event-context word, clamped to `1.0`.  The keyword extraction is totalised
with `[]` in place of the Python `IndexError`, which the modelled runs rule
out by guarding on the event name having a whitespace token. -/
def calculateRelevanceScoreFast (tweetText eventName : List Char) : ℚ :=
  let textLower := toLowerL tweetText
  let eventLower := toLowerL eventName
  let s0 : ℚ := if containsL textLower eventLower then 6/10 else 0
  let kws := (extractKeywords eventName).getD []
  let matched := (kws.filter (fun k => containsL textLower k)).length
  let s1 := s0 + min ((3 : ℚ)/10) ((matched : ℚ) * (1/10))
  let s2 := s1 + (if engagementPhrases.any (fun p => containsL textLower p) then 1/10 else 0)
  let s3 := s2 + (if eventContextWords.any (fun w => containsL textLower w) then 1/20 else 0)
  min 1 s3

/-- `SmartAttendeeEngine._detect_engagement_fast(tweet_text)`. -/
def detectEngagementFast (tweetText : List Char) : List Char :=
  let textLower := toLowerL tweetText
  if [("attending").toList, ("going to").toList, ("will be there").toList].any
      (fun w => containsL textLower w) then ("confirmed_attendance").toList
  else if [("excited for").toList,
           ("can").toList ++ aposC :: ("t wait for").toList].any
      (fun w => containsL textLower w) then ("excited").toList
  else ("discussing").toList

/-- Construction of one `ResearchAttendee` inside `_process_tweets_fast`. -/
def buildAttendee (user : TwUser) (tweet : Tweet) (r : ℚ) : ResearchAttendee :=
  { username := '@' :: user.username,
    display_name := user.name,
    bio := user.description.getD [],
    location := user.location.getD [],
    followers_count := user.followersCount.getD 0,
    verified := user.verified.getD false,
    confidence_score := 7/10,
    engagement_type := detectEngagementFast tweet.text,
    post_content :=
      if tweet.text.length > 100 then tweet.text.take 100 ++ ("...").toList
      else tweet.text,
    post_date := tweet.createdAt,
    post_link := ("https://twitter.com/").toList ++ user.username ++
      ("/status/").toList ++ (toString tweet.id).toList,
    relevance_score := r }

/-- `SmartAttendeeEngine._process_tweets_fast(tweets, event_name)`: look up
each tweet's author (last included user with that id wins, as in the Python
dict comprehension), score it, and keep it when the score reaches the 0.05
threshold. -/
def processTweetsFast (resp : TwResponse) (eventName : List Char) : List ResearchAttendee :=
  match resp.includesUsers with
  | none => []
  | some users =>
    resp.data.filterMap (fun tweet =>
      match List.find? (fun u => decide (u.id = tweet.authorId)) users.reverse with
      | none => none
      | some user =>
        let r := calculateRelevanceScoreFast tweet.text eventName
        if (1 : ℚ)/20 ≤ r then some (buildAttendee user tweet r) else none)

/-- `SmartAttendeeEngine._search_and_process(query, event_name,
max_results)`: one oracle search with the per-call cap `min(·, 20)`;
failures and empty data yield no attendees. -/
def searchAndProcess (tw : AtOracle) (q eventName : List Char) (maxResults : Nat) :
    List ResearchAttendee :=
  match tw q (min maxResults 20) with
  | none => []
  | some resp => if resp.data = [] then [] else processTweetsFast resp eventName

/-- Accumulator of `_guaranteed_find_attendees`: attendees kept so far and
the usernames already seen. -/
structure AtState where
  atts : List ResearchAttendee
  seen : List (List Char)
deriving Repr

/-- Adding one processed attendee: kept only under a fresh username and
while fewer than `max_results` have been accumulated. -/
def addAttendee (maxR : Nat) (s : AtState) (a : ResearchAttendee) : AtState :=
  if a.username ∉ s.seen ∧ s.atts.length < maxR then
    ⟨s.atts ++ [a], a.username :: s.seen⟩
  else s

/-- One phase loop of `_guaranteed_find_attendees`: walk the (label, query)
pairs, breaking as soon as the accumulated count reaches `max_results`;
each issued query is logged with the count at issue time. -/
def attendeePhase (search : List Char → Nat → List ResearchAttendee) (maxR perQ : Nat) :
    List (List Char × List Char) → AtState → AtState × List QueryLog
  | [], s => (s, [])
  | (_, q) :: rest, s =>
    if s.atts.length ≥ maxR then (s, [])
    else
      let found := search q perQ
      let s1 := found.foldl (addAttendee maxR) s
      let r := attendeePhase search maxR perQ rest s1
      (r.1, ⟨q, s.atts.length, perQ⟩ :: r.2)

/-- The three-phase collection of `_guaranteed_find_attendees` (before its
final sort): exact queries (3 max, hint `3 N`), keyword queries only when
short (3 max, hint `2 N`), broad queries only when still short (2 max,
hint `N`).  Returns the accumulator and the trace of issued queries. -/
def attendeeRun (tw : AtOracle) (eventName : List Char) (eventDate : Option (List Char))
    (maxR : Nat) : AtState × List QueryLog :=
  let search := fun q n => searchAndProcess tw q eventName n
  let r1 := attendeePhase search maxR (maxR * 3)
    ((generateExactQueries eventName eventDate).take 3) ⟨[], []⟩
  let r2 := if r1.1.atts.length < maxR then
      attendeePhase search maxR (maxR * 2)
        ((generateSmartKeywordQueries eventName).take 3) r1.1
    else (r1.1, [])
  let r3 := if r2.1.atts.length < maxR then
      attendeePhase search maxR maxR
        ((generateBroadQueries eventName).take 2) r2.1
    else (r2.1, [])
  (r3.1, r1.2 ++ r2.2 ++ r3.2)

/-- The attendees accumulated by a discovery run, in accumulation order. -/
def collectedAttendees (tw : AtOracle) (eventName : List Char)
    (eventDate : Option (List Char)) (maxR : Nat) : List ResearchAttendee :=
  (attendeeRun tw eventName eventDate maxR).1.atts

/-- The trace of queries an attendee discovery run issued. -/
def atTrace (tw : AtOracle) (eventName : List Char)
    (eventDate : Option (List Char)) (maxR : Nat) : List QueryLog :=
  (attendeeRun tw eventName eventDate maxR).2

/-- All attendees the provider pipeline produced over the issued queries. -/
def atProduced (tw : AtOracle) (eventName : List Char)
    (eventDate : Option (List Char)) (maxR : Nat) : List ResearchAttendee :=
  ((atTrace tw eventName eventDate maxR).map
    (fun ql => searchAndProcess tw ql.query eventName ql.perQuery)).flatten

/-- `_guaranteed_find_attendees`: the collected attendees sorted by
relevance, descending and stable. -/
def guaranteedFindAttendees (tw : AtOracle) (eventName : List Char)
    (eventDate : Option (List Char)) (maxR : Nat) : List ResearchAttendee :=
  sortDesc (fun a => a.relevance_score)
    (collectedAttendees tw eventName eventDate maxR)

/-- `SmartAttendeeEngine.discover_attendees` for an operational client.  An
event name with no whitespace token makes every run end with `[]`: either no
tweet is ever scored (nothing accumulates, and phases 2–3 raise through
`_extract_keywords` when entered, caught by the top-level handler), or the
first scored tweet raises there; both are the `[]` branch below.  Otherwise
the run returns the sorted accumulation truncated to `max_results`. -/
def discoverAttendees (tw : AtOracle) (eventName : List Char)
    (eventDate : Option (List Char)) (maxR : Nat) : List ResearchAttendee :=
  match splitWs eventName with
  | [] => []
  | _ :: _ => (guaranteedFindAttendees tw eventName eventDate maxR).take maxR

/-! ### Lemmas: the stable descending sort -/

/-- Insertion permutes: `insDesc` only repositions the new element. -/
theorem insDesc_perm (f : α → ℚ) (x : α) (l : List α) :
    (insDesc f x l).Perm (x :: l) := by
  induction l with
  | nil => simp [insDesc]
  | cons y ys ih =>
    simp only [insDesc]
    split
    · exact List.Perm.refl _
    · exact (List.Perm.cons y ih).trans (List.Perm.swap x y ys)

/-- Sorting permutes the input. -/
theorem sortDesc_perm (f : α → ℚ) (l : List α) : (sortDesc f l).Perm l := by
  induction l with
  | nil => simp [sortDesc]
  | cons x xs ih =>
    exact (insDesc_perm f x (sortDesc f xs)).trans (List.Perm.cons x ih)

/-- Insertion preserves the descending-key pairwise order. -/
theorem insDesc_pairwise (f : α → ℚ) (x : α) (l : List α)
    (h : l.Pairwise (fun a b => f b ≤ f a)) :
    (insDesc f x l).Pairwise (fun a b => f b ≤ f a) := by
  induction l with
  | nil => simp [insDesc]
  | cons y ys ih =>
    rcases List.pairwise_cons.mp h with ⟨hy, hys⟩
    simp only [insDesc]
    split
    · rename_i hxy
      exact List.pairwise_cons.mpr
        ⟨fun z hz => by
          rcases List.mem_cons.mp hz with rfl | hz
          · exact hxy
          · exact le_trans (hy z hz) hxy,
         h⟩
    · rename_i hxy
      refine List.pairwise_cons.mpr ⟨fun z hz => ?_, ih hys⟩
      rcases List.mem_cons.mp (((insDesc_perm f x ys).mem_iff).mp hz) with rfl | hz
      · exact le_of_not_le hxy
      · exact hy z hz

/-- The sort output is pairwise descending in the key. -/
theorem sortDesc_pairwise (f : α → ℚ) (l : List α) :
    (sortDesc f l).Pairwise (fun a b => f b ≤ f a) := by
  induction l with
  | nil => simp [sortDesc]
  | cons x xs ih => exact insDesc_pairwise f x (sortDesc f xs) ih

/-- When the inserted element carries the key `c`, it lands in front of all
elements with key `c`: the elements it passes over have strictly greater
keys. -/
theorem insDesc_filter_eq (f : α → ℚ) (c : ℚ) (x : α) (l : List α) (hx : f x = c) :
    (insDesc f x l).filter (fun a => decide (f a = c)) =
      x :: l.filter (fun a => decide (f a = c)) := by
  induction l with
  | nil => simp [insDesc, hx]
  | cons y ys ih =>
    simp only [insDesc]
    split
    · simp [List.filter_cons, hx]
    · rename_i hxy
      have hyc : ¬ (f y = c) := by
        intro hyc
        exact hxy (by rw [hx, ← hyc])
      simp [List.filter_cons, hyc, ih]

/-- When the inserted element does not carry the key `c`, the `c`-keyed
subsequence is untouched. -/
theorem insDesc_filter_ne (f : α → ℚ) (c : ℚ) (x : α) (l : List α) (hx : ¬ (f x = c)) :
    (insDesc f x l).filter (fun a => decide (f a = c)) =
      l.filter (fun a => decide (f a = c)) := by
  induction l with
  | nil => simp [insDesc, hx]
  | cons y ys ih =>
    simp only [insDesc]
    split
    · simp [List.filter_cons, hx]
    · simp [List.filter_cons, ih]

/-- Stability: for every key value, sorting leaves the subsequence of
elements with that key in its original order. -/
theorem sortDesc_stable (f : α → ℚ) (c : ℚ) (l : List α) :
    (sortDesc f l).filter (fun a => decide (f a = c)) =
      l.filter (fun a => decide (f a = c)) := by
  induction l with
  | nil => simp [sortDesc]
  | cons x xs ih =>
    simp only [sortDesc]
    by_cases hx : f x = c
    · rw [insDesc_filter_eq f c x (sortDesc f xs) hx, ih]
      simp [List.filter_cons, hx]
    · rw [insDesc_filter_ne f c x (sortDesc f xs) hx, ih]
      simp [List.filter_cons, hx]

/-! ### Lemmas: event deduplication and the collection loop -/

/-- Modelled from the spec: first-seen-kept deduplication by key.  Walks the
accepted record stream in order; a record whose key was already seen is
dropped, otherwise it is kept and its key registered.  Returns the kept
records and the final seen-set.  The collection loop below is proved equal
to this reference. -/
def keepFirstByKeyS (seen : List (List Char)) :
    List ResearchEvent → List ResearchEvent × List (List Char)
  | [] => ([], seen)
  | e :: t =>
    if createEventKey e ∈ seen then keepFirstByKeyS seen t
    else
      let p := keepFirstByKeyS (createEventKey e :: seen) t
      (e :: p.1, p.2)

/-- Kept records are a subset of the stream. -/
theorem keepFirst_subset (l : List ResearchEvent) (seen : List (List Char)) :
    ∀ e ∈ (keepFirstByKeyS seen l).1, e ∈ l := by
  induction l generalizing seen with
  | nil => intro e he; simp [keepFirstByKeyS] at he
  | cons x t ih =>
    intro e he
    simp only [keepFirstByKeyS] at he
    split at he
    · exact List.mem_cons_of_mem x (ih seen e he)
    · rcases List.mem_cons.mp he with rfl | he
      · exact List.mem_cons_self e t
      · exact List.mem_cons_of_mem x (ih _ e he)

/-- No kept record carries a key that was already seen at entry. -/
theorem keepFirst_notin_seen (l : List ResearchEvent) (seen : List (List Char)) :
    ∀ e ∈ (keepFirstByKeyS seen l).1, createEventKey e ∉ seen := by
  induction l generalizing seen with
  | nil => intro e he; simp [keepFirstByKeyS] at he
  | cons x t ih =>
    intro e he
    simp only [keepFirstByKeyS] at he
    split at he
    · exact ih seen e he
    · rename_i hx
      rcases List.mem_cons.mp he with rfl | he
      · exact hx
      · intro hmem
        exact ih _ e he (List.mem_cons_of_mem _ hmem)

/-- The kept records carry pairwise distinct keys. -/
theorem keepFirst_nodup (l : List ResearchEvent) (seen : List (List Char)) :
    ((keepFirstByKeyS seen l).1.map createEventKey).Nodup := by
  induction l generalizing seen with
  | nil => simp [keepFirstByKeyS]
  | cons x t ih =>
    simp only [keepFirstByKeyS]
    split
    · exact ih seen
    · refine List.nodup_cons.mpr ⟨?_, ih _⟩
      intro hmem
      rcases List.mem_map.mp hmem with ⟨e, he, hkey⟩
      exact keepFirst_notin_seen t _ e he (by rw [hkey]; exact List.mem_cons_self _ _)

/-- Deduplicating a concatenation: run the first part, then the second from
the seen-set the first part left behind. -/
theorem keepFirst_append (a b : List ResearchEvent) (seen : List (List Char)) :
    keepFirstByKeyS seen (a ++ b) =
      ((keepFirstByKeyS seen a).1 ++ (keepFirstByKeyS (keepFirstByKeyS seen a).2 b).1,
       (keepFirstByKeyS (keepFirstByKeyS seen a).2 b).2) := by
  induction a generalizing seen with
  | nil => simp [keepFirstByKeyS]
  | cons x t ih =>
    simp only [List.cons_append, keepFirstByKeyS]
    split
    · exact ih seen
    · simp [ih]

/-- The per-query fold of the collection loop is exactly first-seen-kept
deduplication of the date-accepted records. -/
theorem foldl_addEvent_eq (sd ed td : PyDateTime) (l : List ResearchEvent)
    (evs : List ResearchEvent) (seen : List (List Char)) :
    l.foldl (addEvent sd ed td) ⟨evs, seen⟩ =
      ⟨evs ++ (keepFirstByKeyS seen (l.filter (fun e => dateAcceptB sd ed td e.exact_date))).1,
       (keepFirstByKeyS seen (l.filter (fun e => dateAcceptB sd ed td e.exact_date))).2⟩ := by
  induction l generalizing evs seen with
  | nil => simp [keepFirstByKeyS]
  | cons x t ih =>
    simp only [List.foldl_cons, List.filter_cons]
    by_cases hd : dateAcceptB sd ed td x.exact_date
    · simp only [hd, if_pos, addEvent, if_pos hd]
      by_cases hseen : createEventKey x ∈ seen
      · simp only [if_pos hseen, keepFirstByKeyS, ih]
      · simp only [if_neg hseen, keepFirstByKeyS, ih, List.append_assoc, List.singleton_append]
    · simp only [hd, if_neg, addEvent, Bool.false_eq_true, if_false, ih]

/-- The date-accepted record stream a trace of issued queries induces, in
processing order. -/
def acceptedOfTrace (P : EvProvider) (sd ed td : PyDateTime) (tr : List QueryLog) :
    List ResearchEvent :=
  (tr.map (fun ql => (fetchSerpapiEvents P ql.query ql.perQuery).filter
    (fun e => dateAcceptB sd ed td e.exact_date))).flatten

/-- The date-accepted record stream of a whole discovery run. -/
def evAccepted (P : EvProvider) (queries : List (List Char))
    (sd ed td : PyDateTime) (n : Nat) : List ResearchEvent :=
  acceptedOfTrace P sd ed td (evTrace P queries sd ed td n)

/-- The collection loop is first-seen-kept deduplication of the accepted
stream of its own trace, appended to whatever was already accumulated. -/
theorem fetchEventsLoop_eq (P : EvProvider) (sd ed td : PyDateTime) (n : Nat) :
    ∀ (qs : List (List Char)) (s : EvState),
      (fetchEventsLoop P sd ed td n qs s).1 =
        ⟨s.events ++ (keepFirstByKeyS s.seen
            (acceptedOfTrace P sd ed td (fetchEventsLoop P sd ed td n qs s).2)).1,
          (keepFirstByKeyS s.seen
            (acceptedOfTrace P sd ed td (fetchEventsLoop P sd ed td n qs s).2)).2⟩ := by
  intro qs
  induction qs with
  | nil =>
    intro s
    obtain ⟨evs, seen⟩ := s
    simp [fetchEventsLoop, acceptedOfTrace, keepFirstByKeyS]
  | cons q rest ih =>
    intro s
    obtain ⟨evs, seen⟩ := s
    simp only [fetchEventsLoop]
    split
    · simp [acceptedOfTrace, keepFirstByKeyS]
    · simp only [foldl_addEvent_eq]
      rw [ih]
      simp only [acceptedOfTrace, List.map_cons, List.flatten_cons]
      rw [keepFirst_append]
      simp [List.append_assoc, acceptedOfTrace]

/-- The accumulated events of a run are exactly the first-seen-kept
deduplication of its accepted stream. -/
theorem collectedEvents_eq (P : EvProvider) (queries : List (List Char))
    (sd ed td : PyDateTime) (n : Nat) :
    collectedEvents P queries sd ed td n =
      (keepFirstByKeyS [] (evAccepted P queries sd ed td n)).1 := by
  unfold collectedEvents evAccepted evTrace
  rw [fetchEventsLoop_eq]
  simp

/-- Every accumulated event belongs to the accepted stream. -/
theorem collectedEvents_subset_accepted (P : EvProvider) (queries : List (List Char))
    (sd ed td : PyDateTime) (n : Nat) :
    ∀ e ∈ collectedEvents P queries sd ed td n, e ∈ evAccepted P queries sd ed td n := by
  intro e he
  rw [collectedEvents_eq] at he
  exact keepFirst_subset _ _ e he

/-- Every record of the accepted stream is a record the provider produced. -/
theorem accepted_subset_produced (P : EvProvider) (queries : List (List Char))
    (sd ed td : PyDateTime) (n : Nat) :
    ∀ e ∈ evAccepted P queries sd ed td n, e ∈ evProduced P queries sd ed td n := by
  intro e he
  unfold evAccepted acceptedOfTrace at he
  unfold evProduced
  rcases List.mem_flatten.mp he with ⟨l, hl, hel⟩
  rcases List.mem_map.mp hl with ⟨ql, hql, rfl⟩
  exact List.mem_flatten.mpr
    ⟨fetchSerpapiEvents P ql.query ql.perQuery,
     List.mem_map.mpr ⟨ql, hql, rfl⟩, List.mem_of_mem_filter hel⟩

/-- Every produced record passed validation. -/
theorem produced_valid (P : EvProvider) (queries : List (List Char))
    (sd ed td : PyDateTime) (n : Nat) :
    ∀ e ∈ evProduced P queries sd ed td n, isValidEvent e = true := by
  intro e he
  rcases List.mem_flatten.mp he with ⟨l, hl, hel⟩
  rcases List.mem_map.mp hl with ⟨ql, _, rfl⟩
  exact List.of_mem_filter hel

/-- The accumulated events carry pairwise distinct dedup keys. -/
theorem collectedEvents_nodup_keys (P : EvProvider) (queries : List (List Char))
    (sd ed td : PyDateTime) (n : Nat) :
    ((collectedEvents P queries sd ed td n).map createEventKey).Nodup := by
  rw [collectedEvents_eq]
  exact keepFirst_nodup _ _

/-- Every query the event loop issues is issued strictly below the
`2 * max_results` accumulation cap. -/
theorem fetchEventsLoop_trace_lt (P : EvProvider) (sd ed td : PyDateTime) (n : Nat) :
    ∀ (qs : List (List Char)) (s : EvState),
      ∀ ql ∈ (fetchEventsLoop P sd ed td n qs s).2, ql.countBefore < n * 2 := by
  intro qs
  induction qs with
  | nil => intro s ql h; simp [fetchEventsLoop] at h
  | cons q rest ih =>
    intro s ql h
    simp only [fetchEventsLoop] at h
    split at h
    · simp at h
    · rename_i hlt
      rcases List.mem_cons.mp h with rfl | h
      · exact Nat.lt_of_not_le hlt
      · exact ih _ ql h

/-! ### Lemmas: the attendee collection phases -/

/-- The accumulator invariant: usernames are pairwise distinct and every
accumulated username is registered in the seen-set. -/
def AtInv (s : AtState) : Prop :=
  (s.atts.map (fun a => a.username)).Nodup ∧ ∀ a ∈ s.atts, a.username ∈ s.seen

/-- Adding one attendee preserves the invariant. -/
theorem addAttendee_inv (m : Nat) (s : AtState) (a : ResearchAttendee)
    (h : AtInv s) : AtInv (addAttendee m s a) := by
  obtain ⟨hnd, hseen⟩ := h
  unfold addAttendee
  split
  · rename_i hc
    constructor
    · rw [List.map_append, List.nodup_append]
      refine ⟨hnd, List.nodup_singleton _, ?_⟩
      intro u hu hu1
      rcases List.mem_map.mp hu with ⟨b, hb, rfl⟩
      simp only [List.map_cons, List.map_nil, List.mem_singleton] at hu1
      exact hc.1 (hu1 ▸ hseen b hb)
    · intro b hb
      rcases List.mem_append.mp hb with hb | hb
      · exact List.mem_cons_of_mem _ (hseen b hb)
      · rw [List.mem_singleton.mp hb]
        exact List.mem_cons_self _ _
  · exact ⟨hnd, hseen⟩

/-- The per-query fold preserves the invariant. -/
theorem foldl_addAttendee_inv (m : Nat) (l : List ResearchAttendee) (s : AtState)
    (h : AtInv s) : AtInv (l.foldl (addAttendee m) s) := by
  induction l generalizing s with
  | nil => exact h
  | cons a t ih => exact ih _ (addAttendee_inv m s a h)

/-- The per-query fold only accumulates elements of the processed list. -/
theorem foldl_addAttendee_mem (m : Nat) (l : List ResearchAttendee) (s : AtState) :
    ∀ x ∈ (l.foldl (addAttendee m) s).atts, x ∈ s.atts ∨ x ∈ l := by
  induction l generalizing s with
  | nil => intro x hx; exact Or.inl hx
  | cons a t ih =>
    intro x hx
    rcases ih _ x hx with hx | hx
    · unfold addAttendee at hx
      split at hx
      · rcases List.mem_append.mp hx with hx | hx
        · exact Or.inl hx
        · exact Or.inr (by rw [List.mem_singleton.mp hx]; exact List.mem_cons_self a t)
      · exact Or.inl hx
    · exact Or.inr (List.mem_cons_of_mem a hx)

/-- A phase preserves the invariant. -/
theorem attendeePhase_inv (search : List Char → Nat → List ResearchAttendee)
    (m pq : Nat) (qs : List (List Char × List Char)) (s : AtState)
    (h : AtInv s) : AtInv (attendeePhase search m pq qs s).1 := by
  induction qs generalizing s with
  | nil => exact h
  | cons q rest ih =>
    obtain ⟨lbl, qq⟩ := q
    simp only [attendeePhase]
    split
    · exact h
    · exact ih _ (foldl_addAttendee_inv m _ s h)

/-- A phase only accumulates attendees its issued queries produced. -/
theorem attendeePhase_mem (search : List Char → Nat → List ResearchAttendee)
    (m pq : Nat) (qs : List (List Char × List Char)) (s : AtState) :
    ∀ x ∈ (attendeePhase search m pq qs s).1.atts,
      x ∈ s.atts ∨
        x ∈ ((attendeePhase search m pq qs s).2.map
              (fun ql => search ql.query ql.perQuery)).flatten := by
  induction qs generalizing s with
  | nil => intro x hx; exact Or.inl hx
  | cons q rest ih =>
    obtain ⟨lbl, qq⟩ := q
    intro x hx
    simp only [attendeePhase] at hx ⊢
    by_cases hge : s.atts.length ≥ m
    · rw [if_pos hge] at hx ⊢
      exact Or.inl hx
    · rw [if_neg hge] at hx ⊢
      rcases ih _ x hx with hx2 | hx2
      · rcases foldl_addAttendee_mem m _ s x hx2 with hx3 | hx3
        · exact Or.inl hx3
        · right
          simp only [List.map_cons, List.flatten_cons]
          exact List.mem_append.mpr (Or.inl hx3)
      · right
        simp only [List.map_cons, List.flatten_cons]
        exact List.mem_append.mpr (Or.inr hx2)

/-- Every query a phase issues is issued strictly below the target count. -/
theorem attendeePhase_trace_lt (search : List Char → Nat → List ResearchAttendee)
    (m pq : Nat) (qs : List (List Char × List Char)) (s : AtState) :
    ∀ ql ∈ (attendeePhase search m pq qs s).2, ql.countBefore < m := by
  induction qs generalizing s with
  | nil => intro ql h; simp [attendeePhase] at h
  | cons q rest ih =>
    obtain ⟨lbl, qq⟩ := q
    intro ql h
    simp only [attendeePhase] at h
    split at h
    · simp at h
    · rename_i hlt
      rcases List.mem_cons.mp h with rfl | h
      · exact Nat.lt_of_not_le hlt
      · exact ih _ ql h

/-- The guarded phases 2 and 3 preserve the invariant. -/
theorem condPhase_inv (search : List Char → Nat → List ResearchAttendee)
    (m pq : Nat) (qs : List (List Char × List Char)) (p : AtState × List QueryLog)
    (h : AtInv p.1) :
    AtInv (if p.1.atts.length < m then attendeePhase search m pq qs p.1 else (p.1, [])).1 := by
  split
  · exact attendeePhase_inv search m pq qs p.1 h
  · exact h

/-- The guarded phases 2 and 3 only accumulate what their queries produced. -/
theorem condPhase_mem (search : List Char → Nat → List ResearchAttendee)
    (m pq : Nat) (qs : List (List Char × List Char)) (p : AtState × List QueryLog) :
    ∀ x ∈ (if p.1.atts.length < m then attendeePhase search m pq qs p.1 else (p.1, [])).1.atts,
      x ∈ p.1.atts ∨
        x ∈ ((if p.1.atts.length < m then attendeePhase search m pq qs p.1 else (p.1, [])).2.map
              (fun ql => search ql.query ql.perQuery)).flatten := by
  split
  · exact attendeePhase_mem search m pq qs p.1
  · intro x hx; exact Or.inl hx

/-- The guarded phases 2 and 3 issue queries only below the target count. -/
theorem condPhase_trace_lt (search : List Char → Nat → List ResearchAttendee)
    (m pq : Nat) (qs : List (List Char × List Char)) (p : AtState × List QueryLog) :
    ∀ ql ∈ (if p.1.atts.length < m then attendeePhase search m pq qs p.1 else (p.1, [])).2,
      ql.countBefore < m := by
  split
  · exact attendeePhase_trace_lt search m pq qs p.1
  · intro ql h; simp at h

/-- The empty accumulator satisfies the invariant. -/
theorem atInv_empty : AtInv (⟨[], []⟩ : AtState) :=
  ⟨List.nodup_nil, fun a ha => absurd ha (List.not_mem_nil a)⟩

/-- The accumulated attendees of a run carry pairwise distinct usernames. -/
theorem collectedAttendees_nodup (tw : AtOracle) (en : List Char)
    (ed : Option (List Char)) (maxR : Nat) :
    ((collectedAttendees tw en ed maxR).map (fun a => a.username)).Nodup := by
  have h : AtInv (attendeeRun tw en ed maxR).1 := by
    unfold attendeeRun
    dsimp only
    exact condPhase_inv _ _ _ _ _
      (condPhase_inv _ _ _ _ _ (attendeePhase_inv _ _ _ _ _ atInv_empty))
  exact h.1

/-- Every accumulated attendee is one the provider pipeline produced for an
issued query. -/
theorem collectedAttendees_subset_produced (tw : AtOracle) (en : List Char)
    (ed : Option (List Char)) (maxR : Nat) :
    ∀ x ∈ collectedAttendees tw en ed maxR, x ∈ atProduced tw en ed maxR := by
  intro x hx
  unfold collectedAttendees attendeeRun at hx
  unfold atProduced atTrace attendeeRun
  dsimp only at hx ⊢
  simp only [List.map_append, List.flatten_append, List.mem_append]
  rcases condPhase_mem _ _ _ _ _ x hx with h2 | h2
  · rcases condPhase_mem _ _ _ _ _ x h2 with h1 | h1
    · rcases attendeePhase_mem _ _ _ _ _ x h1 with h0 | h0
      · simp at h0
      · exact Or.inl (Or.inl h0)
    · exact Or.inl (Or.inr h1)
  · exact Or.inr h2

/-- Every query an attendee run issues is issued strictly below the target
count. -/
theorem atTrace_lt (tw : AtOracle) (en : List Char)
    (ed : Option (List Char)) (maxR : Nat) :
    ∀ ql ∈ atTrace tw en ed maxR, ql.countBefore < maxR := by
  intro ql h
  unfold atTrace attendeeRun at h
  dsimp only at h
  rcases List.mem_append.mp h with h | h
  · rcases List.mem_append.mp h with h | h
    · exact attendeePhase_trace_lt _ _ _ _ _ ql h
    · exact condPhase_trace_lt _ _ _ _ _ ql h
  · exact condPhase_trace_lt _ _ _ _ _ ql h

/-! ### Lemmas: score bounds -/

/-- A fold that conditionally adds a fixed non-negative increment keeps a
non-negative accumulator non-negative. -/
theorem foldl_condAdd_nonneg (ks : List (List Char)) (t : List Char) (c s : ℚ)
    (hc : 0 ≤ c) (hs : 0 ≤ s) :
    0 ≤ ks.foldl (fun acc k => if containsL t k then acc + c else acc) s := by
  induction ks generalizing s with
  | nil => exact hs
  | cons k rest ih =>
    simp only [List.foldl_cons]
    split
    · exact ih _ (by linarith)
    · exact ih _ hs

/-- The category weight looked up by the hype score is non-negative. -/
theorem categoryWeight_nonneg (cat : List Char) :
    0 ≤ (((categoryWeights.find? (fun p => decide (p.1 = cat))).map Prod.snd).getD (1/10)) := by
  cases h : categoryWeights.find? (fun p => decide (p.1 = cat)) with
  | none => norm_num
  | some p =>
    have hp : p ∈ categoryWeights := List.mem_of_find?_eq_some h
    simp only [categoryWeights, List.mem_cons, List.not_mem_nil, or_false] at hp
    rcases hp with rfl | rfl | rfl | rfl | rfl | rfl <;> norm_num

/-- The hype score always lies in `[0, 1]`. -/
theorem hypeScore_bounds (e : ResearchEvent) :
    0 ≤ calculateHypeScore e ∧ calculateHypeScore e ≤ 1 := by
  unfold calculateHypeScore
  have h1 : (0 : ℚ) ≤ hypeKeywords.foldl
      (fun s k => if containsL (toLowerL e.event_name) k then s + 1/10 else s) (0 : ℚ) :=
    foldl_condAdd_nonneg _ _ _ _ (by norm_num) le_rfl
  have h2 : (0 : ℚ) ≤ prestigiousVenues.foldl
      (fun s v => if containsL (toLowerL e.exact_venue) v then s + 15/100 else s)
      (hypeKeywords.foldl
        (fun s k => if containsL (toLowerL e.event_name) k then s + 1/10 else s) (0 : ℚ)) :=
    foldl_condAdd_nonneg _ _ _ _ (by norm_num) h1
  have h3 := categoryWeight_nonneg e.category
  constructor
  · exact le_min (by norm_num) (by linarith)
  · exact min_le_left _ _

/-- The relevance score always lies in `[0, 1]`. -/
theorem relevanceScore_bounds (tweetText eventName : List Char) :
    0 ≤ calculateRelevanceScoreFast tweetText eventName ∧
      calculateRelevanceScoreFast tweetText eventName ≤ 1 := by
  unfold calculateRelevanceScoreFast
  have h0 : (0 : ℚ) ≤
      (if containsL (toLowerL tweetText) (toLowerL eventName) then (6 : ℚ)/10 else 0) := by
    split <;> norm_num
  have hmin : (0 : ℚ) ≤ min ((3 : ℚ)/10)
      ((((((extractKeywords eventName).getD []).filter
        (fun k => containsL (toLowerL tweetText) k)).length : ℚ)) * (1/10)) :=
    le_min (by norm_num) (by positivity)
  have hph : (0 : ℚ) ≤
      (if engagementPhrases.any (fun p => containsL (toLowerL tweetText) p) then (1 : ℚ)/10 else 0) := by
    split <;> norm_num
  have hcw : (0 : ℚ) ≤
      (if eventContextWords.any (fun w => containsL (toLowerL tweetText) w) then (1 : ℚ)/20 else 0) := by
    split <;> norm_num
  constructor
  · exact le_min (by norm_num) (by linarith)
  · exact min_le_left _ _

/-- Every attendee built by tweet processing carries the score the scoring
function computed for its tweet, hence a score in `[0, 1]`. -/
theorem processTweets_score (resp : TwResponse) (en : List Char) :
    ∀ a ∈ processTweetsFast resp en,
      0 ≤ a.relevance_score ∧ a.relevance_score ≤ 1 := by
  intro a ha
  unfold processTweetsFast at ha
  split at ha
  · simp at ha
  · rcases List.mem_filterMap.mp ha with ⟨tw, _, htw⟩
    split at htw
    · simp at htw
    · rename_i user heq
      have htw2 : (if (1 : ℚ)/20 ≤ calculateRelevanceScoreFast tw.text en
          then some (buildAttendee user tw (calculateRelevanceScoreFast tw.text en))
          else none) = some a := htw
      split at htw2
      · rcases Option.some_inj.mp htw2 with rfl
        exact relevanceScore_bounds tw.text en
      · simp at htw2

/-- Attendees from a single search carry scores in `[0, 1]`. -/
theorem searchAndProcess_score (tw : AtOracle) (q en : List Char) (n : Nat) :
    ∀ a ∈ searchAndProcess tw q en n,
      0 ≤ a.relevance_score ∧ a.relevance_score ≤ 1 := by
  intro a ha
  unfold searchAndProcess at ha
  split at ha
  · simp at ha
  · split at ha
    · simp at ha
    · exact processTweets_score _ en a ha

/-- Every produced attendee carries a score in `[0, 1]`. -/
theorem atProduced_score (tw : AtOracle) (en : List Char)
    (ed : Option (List Char)) (maxR : Nat) :
    ∀ a ∈ atProduced tw en ed maxR,
      0 ≤ a.relevance_score ∧ a.relevance_score ≤ 1 := by
  intro a ha
  rcases List.mem_flatten.mp ha with ⟨l, hl, hal⟩
  rcases List.mem_map.mp hl with ⟨ql, _, rfl⟩
  exact searchAndProcess_score tw ql.query en ql.perQuery a hal

/-! ### Lemmas: small preservation facts and output membership -/

/-- The in-place hype update touches neither the name nor the date, so the
dedup key is unchanged. -/
theorem createEventKey_updateHype (e : ResearchEvent) :
    createEventKey (updateHype e) = createEventKey e := rfl

/-- The in-place hype update does not touch validity. -/
theorem isValidEvent_updateHype (e : ResearchEvent) :
    isValidEvent (updateHype e) = isValidEvent e := rfl

/-- Every returned event is the hype-update of an accumulated event. -/
theorem discoverEvents_mem (P : EvProvider) (queries : List (List Char))
    (sd ed td : PyDateTime) (n : Nat) :
    ∀ e ∈ discoverEvents P queries sd ed td n,
      ∃ e0 ∈ collectedEvents P queries sd ed td n, e = updateHype e0 := by
  intro e he
  unfold discoverEvents scoreEventsByHype at he
  have h1 := List.mem_of_mem_take he
  have h2 := ((sortDesc_perm (fun e : ResearchEvent => e.hype_score) _).mem_iff).mp h1
  rcases List.mem_map.mp h2 with ⟨e0, he0, rfl⟩
  exact ⟨e0, he0, rfl⟩

/-- Every returned attendee is an accumulated attendee. -/
theorem discoverAttendees_mem (tw : AtOracle) (en : List Char)
    (ed : Option (List Char)) (maxR : Nat) :
    ∀ a ∈ discoverAttendees tw en ed maxR, a ∈ collectedAttendees tw en ed maxR := by
  intro a ha
  unfold discoverAttendees at ha
  split at ha
  · simp at ha
  · have h1 := List.mem_of_mem_take ha
    unfold guaranteedFindAttendees at h1
    exact ((sortDesc_perm (fun a : ResearchAttendee => a.relevance_score) _).mem_iff).mp h1

/-! ### Lemmas: rate limiter -/

/-- The very first search acquisition initialises the reset instant and
consumes one permit. -/
theorem checkRateLimit_fresh (t : ℚ) :
    checkRateLimit setupAdvancedLimits searchRecentKey t =
      (true, searchStateAfter t 1) := by
  have hlook : lookupEp setupAdvancedLimits searchRecentKey =
      some ⟨60, 60, none, 15⟩ := rfl
  unfold checkRateLimit
  rw [hlook]
  dsimp only
  rw [if_neg (show ¬ t > t + 15 by linarith)]
  rw [if_pos (show (60 : Nat) > 0 by omega)]
  simp +decide [setEp, setupAdvancedLimits, searchStateAfter,
    searchRecentKey, postTweetKey, retweetKey]

/-- With `k < 60` permits consumed and the clock still at `t`, the next
search acquisition is allowed and consumes one more permit. -/
theorem checkRateLimit_step (t : ℚ) (k : Nat) (hk : k < 60) :
    checkRateLimit (searchStateAfter t k) searchRecentKey t =
      (true, searchStateAfter t (k + 1)) := by
  have hlook : lookupEp (searchStateAfter t k) searchRecentKey =
      some ⟨60, 60 - k, some (t + 15), 15⟩ := rfl
  unfold checkRateLimit
  rw [hlook]
  dsimp only
  rw [if_neg (show ¬ t > t + 15 by linarith)]
  rw [if_pos (show 60 - k > 0 by omega)]
  have harith : 60 - k - 1 = 60 - (k + 1) := by omega
  simp +decide [setEp, searchStateAfter, searchRecentKey, postTweetKey, retweetKey, harith]

/-- After `k` acquisitions at one instant (`1 ≤ k ≤ 60`), every decision so
far was an allowance and `60 - k` permits remain. -/
theorem searchCallsAt_closed (t : ℚ) :
    ∀ k, 1 ≤ k → k ≤ 60 →
      searchCallsAt t k = (searchStateAfter t k, List.replicate k true) := by
  intro k
  induction k with
  | zero => intro h; omega
  | succ n ih =>
    intro _ hle
    by_cases hn : n = 0
    · subst hn
      simp only [searchCallsAt, checkRateLimit_fresh]
      simp
    · have h1 : 1 ≤ n := by omega
      have hlt : n < 60 := by omega
      simp only [searchCallsAt]
      rw [ih h1 (by omega)]
      dsimp only
      rw [checkRateLimit_step t n hlt]
      simp [List.replicate_succ']

/-- With all 60 permits consumed and the clock still inside the window, the
next acquisition is denied. -/
theorem checkRateLimit_denied (t : ℚ) :
    (checkRateLimit (searchStateAfter t 60) searchRecentKey t).1 = false := by
  have hlook : lookupEp (searchStateAfter t 60) searchRecentKey =
      some ⟨60, 0, some (t + 15), 15⟩ := rfl
  unfold checkRateLimit
  rw [hlook]
  dsimp only
  rw [if_neg (show ¬ t > t + 15 by linarith)]
  rw [if_neg (show ¬ (0 : Nat) > 0 by omega)]

/-- Once the clock passes the reset instant, the window is replenished to
full capacity and the acquisition succeeds, leaving 59 permits. -/
theorem checkRateLimit_reset (t t2 : ℚ) (h : t + 15 < t2) :
    checkRateLimit (searchStateAfter t 60) searchRecentKey t2 =
      (true, [(searchRecentKey, ⟨60, 59, some (t2 + 15), 15⟩),
              (postTweetKey, ⟨100, 100, none, 1440⟩),
              (retweetKey, ⟨5, 5, none, 15⟩)]) := by
  have hlook : lookupEp (searchStateAfter t 60) searchRecentKey =
      some ⟨60, 0, some (t + 15), 15⟩ := rfl
  unfold checkRateLimit
  rw [hlook]
  dsimp only
  rw [if_pos (show t2 > t + 15 from h)]
  rw [if_pos (show (60 : Nat) > 0 by omega)]
  simp +decide [setEp, searchStateAfter, searchRecentKey, postTweetKey, retweetKey]

/-! ### Concrete example runs (used to instantiate the theorems below) -/

/-- A clock instant for example runs: 2024-11-01 00:00. -/
def exToday : PyDateTime := ⟨2024, 11, 1, 0⟩

/-- Example range start: 2024-11-01. -/
def exStart : PyDateTime := ⟨2024, 11, 1, 0⟩

/-- Example range end: 2024-11-30. -/
def exEnd : PyDateTime := ⟨2024, 11, 30, 0⟩

/-- A valid, in-range event record as the provider would parse it. -/
def exEventRecord : ResearchEvent :=
  { event_name := ("Jazz Night Live").toList,
    exact_date := ("Nov 15").toList,
    exact_venue := ("Blue Note Hall").toList,
    location := ("Austin").toList,
    category := ("music").toList,
    confidence_score := 8/10,
    source_url := [],
    posted_by := ("Event Search").toList,
    hype_score := 1/2 }

/-- First example query. -/
def exQueryA : List Char := ("events austin november 2024").toList

/-- Second example query. -/
def exQueryB : List Char := ("upcoming events austin november 2024").toList

/-- An example event provider: one record for the first query, nothing
else. -/
def exProviderE : EvProvider := fun q => if q = exQueryA then [some exEventRecord] else []

/-- An example event name with whitespace tokens. -/
def exAttName : List Char := ("Jazz Night").toList

/-- An example tweet mentioning the event. -/
def exTweet : Tweet := ⟨7, ("Excited for Jazz Night").toList, ("2024-11-01 10:00").toList, 99⟩

/-- The author of the example tweet. -/
def exUser : TwUser :=
  ⟨7, ("alice").toList, ("Alice").toList, some false,
   some (("music fan").toList), some (("Austin").toList), some 10⟩

/-- The example search response. -/
def exResp : TwResponse := ⟨[exTweet], some [exUser]⟩

/-- An example social-search oracle returning the same response to every
query. -/
def exOracleA : AtOracle := fun _ _ => some exResp

/-! ### The claims -/

/-- A duplicate-free list included in another list is no longer than the
latter's deduplication. -/
theorem nodup_subset_length_le {α : Type} [DecidableEq α] (l m : List α)
    (hn : l.Nodup) (hs : l ⊆ m) : l.length ≤ m.dedup.length := by
  have h1 : l.toFinset.card = l.length := List.toFinset_card_of_nodup hn
  have h2 : l.toFinset ⊆ m.toFinset := fun x hx =>
    List.mem_toFinset.mpr (hs (List.mem_toFinset.mp hx))
  have h3 : l.toFinset.card ≤ m.toFinset.card := Finset.card_le_card h2
  rw [h1, List.card_toFinset] at h3
  exact h3

/-- The returned sequence is no longer than the distinct accumulation. -/
theorem discoverEvents_length_le_collected (P : EvProvider) (queries : List (List Char))
    (sd ed td : PyDateTime) (n : Nat) :
    (discoverEvents P queries sd ed td n).length ≤
      (collectedEvents P queries sd ed td n).length := by
  unfold discoverEvents scoreEventsByHype
  calc (((sortDesc (fun e : ResearchEvent => e.hype_score)
        ((collectedEvents P queries sd ed td n).map updateHype)).take n)).length
      ≤ (sortDesc (fun e : ResearchEvent => e.hype_score)
          ((collectedEvents P queries sd ed td n).map updateHype)).length := by
        rw [List.length_take]; exact min_le_right _ _
    _ = ((collectedEvents P queries sd ed td n).map updateHype).length :=
        (sortDesc_perm _ _).length_eq
    _ = (collectedEvents P queries sd ed td n).length := List.length_map _ _

/-- The attendee output is no longer than the distinct accumulation. -/
theorem discoverAttendees_length_le_collected (tw : AtOracle) (en : List Char)
    (ed : Option (List Char)) (n : Nat) :
    (discoverAttendees tw en ed n).length ≤ (collectedAttendees tw en ed n).length := by
  unfold discoverAttendees
  split
  · simp
  · unfold guaranteedFindAttendees
    calc ((sortDesc (fun a : ResearchAttendee => a.relevance_score)
          (collectedAttendees tw en ed n)).take n).length
        ≤ (sortDesc (fun a : ResearchAttendee => a.relevance_score)
            (collectedAttendees tw en ed n)).length := by
          rw [List.length_take]; exact min_le_right _ _
      _ = (collectedAttendees tw en ed n).length := (sortDesc_perm _ _).length_eq

/-- C1.  For every discovery run (events or attendees) and every target
count `N`, the returned sequence has length at most `N` and at most the
number of distinct valid provider-produced records (distinctness by dedup
key for events, by username for attendees); every returned item is an
accumulated provider-derived item — the hype-score update of an accumulated
event, or an accumulated attendee — and every accumulated item came from the
provider.  Nothing is fabricated to reach `N`. -/
theorem claim_C1 :
    (∀ (P : EvProvider) (queries : List (List Char)) (sd ed td : PyDateTime) (n : Nat),
      (discoverEvents P queries sd ed td n).length ≤ n ∧
      (discoverEvents P queries sd ed td n).length ≤
        ((evProduced P queries sd ed td n).map createEventKey).dedup.length ∧
      (∀ e ∈ discoverEvents P queries sd ed td n,
        ∃ e0 ∈ collectedEvents P queries sd ed td n, e = updateHype e0) ∧
      (∀ e0 ∈ collectedEvents P queries sd ed td n,
        e0 ∈ evProduced P queries sd ed td n)) ∧
    (∀ (tw : AtOracle) (en : List Char) (ed : Option (List Char)) (n : Nat),
      (discoverAttendees tw en ed n).length ≤ n ∧
      (discoverAttendees tw en ed n).length ≤
        ((atProduced tw en ed n).map (fun a => a.username)).dedup.length ∧
      (∀ a ∈ discoverAttendees tw en ed n, a ∈ collectedAttendees tw en ed n) ∧
      (∀ a ∈ collectedAttendees tw en ed n, a ∈ atProduced tw en ed n)) := by
  constructor
  · intro P queries sd ed td n
    have hsub : ∀ e0 ∈ collectedEvents P queries sd ed td n,
        e0 ∈ evProduced P queries sd ed td n := fun e0 he0 =>
      accepted_subset_produced P queries sd ed td n e0
        (collectedEvents_subset_accepted P queries sd ed td n e0 he0)
    refine ⟨?_, ?_, discoverEvents_mem P queries sd ed td n, hsub⟩
    · unfold discoverEvents
      rw [List.length_take]
      exact min_le_left _ _
    · refine le_trans (discoverEvents_length_le_collected P queries sd ed td n) ?_
      have hlen : (collectedEvents P queries sd ed td n).length =
          ((collectedEvents P queries sd ed td n).map createEventKey).length :=
        (List.length_map _ _).symm
      rw [hlen]
      exact nodup_subset_length_le _ _
        (collectedEvents_nodup_keys P queries sd ed td n)
        (List.map_subset createEventKey hsub)
  · intro tw en ed n
    refine ⟨?_, ?_, discoverAttendees_mem tw en ed n,
      collectedAttendees_subset_produced tw en ed n⟩
    · unfold discoverAttendees
      split
      · simp
      · rw [List.length_take]; exact min_le_left _ _
    · refine le_trans (discoverAttendees_length_le_collected tw en ed n) ?_
      have hlen : (collectedAttendees tw en ed n).length =
          ((collectedAttendees tw en ed n).map (fun a => a.username)).length :=
        (List.length_map _ _).symm
      rw [hlen]
      exact nodup_subset_length_le _ _
        (collectedAttendees_nodup tw en ed n)
        (List.map_subset _ (collectedAttendees_subset_produced tw en ed n))

/-- C1 witness: the example runs return one item each, and the theorem's
membership conclusions hold at them. -/
theorem claim_C1_witness :
    (∃ e0 ∈ collectedEvents exProviderE [exQueryA, exQueryB] exStart exEnd exToday 1,
      updateHype exEventRecord = updateHype e0) ∧
    buildAttendee exUser exTweet (9/10) ∈ collectedAttendees exOracleA exAttName none 1 ∧
    (discoverEvents exProviderE [exQueryA, exQueryB] exStart exEnd exToday 1).length ≤ 1 :=
  ⟨(claim_C1.1 exProviderE [exQueryA, exQueryB] exStart exEnd exToday 1).2.2.1
      (updateHype exEventRecord) (by with_unfolding_all decide),
   (claim_C1.2 exOracleA exAttName none 1).2.2.1
      (buildAttendee exUser exTweet (9/10)) (by with_unfolding_all decide),
   (claim_C1.1 exProviderE [exQueryA, exQueryB] exStart exEnd exToday 1).1⟩

/-- C2 (amended).  Attendee runs never issue a query once the accumulated
unique count has reached the target: every issued query is logged with an
accumulated count strictly below `max_results` (stated for event names with
a whitespace token, where the modelled run matches the Python run
exception-free).  Event runs cut off at twice the target instead: every
issued query sees an accumulated count strictly below `2 * max_results`, so
a query may still be issued after the target itself is reached. -/
theorem claim_C2 :
    (∀ (P : EvProvider) (queries : List (List Char)) (sd ed td : PyDateTime) (n : Nat),
      ∀ ql ∈ evTrace P queries sd ed td n, ql.countBefore < n * 2) ∧
    (∀ (tw : AtOracle) (en : List Char) (ed : Option (List Char)) (n : Nat),
      splitWs en ≠ [] →
      ∀ ql ∈ atTrace tw en ed n, ql.countBefore < n) := by
  constructor
  · intro P queries sd ed td n
    exact fetchEventsLoop_trace_lt P sd ed td n queries ⟨[], []⟩
  · intro tw en ed n _
    exact atTrace_lt tw en ed n

/-- C2 counterexample: with target count 1, the example event run reaches
one accumulated unique valid event after the first query — the target — yet
issues the second query (logged with accumulated count 1). -/
theorem claim_C2_counterexample :
    (evTrace exProviderE [exQueryA, exQueryB] exStart exEnd exToday 1).map
        QueryLog.countBefore = [0, 1] ∧
    (collectedEvents exProviderE [exQueryA, exQueryB] exStart exEnd exToday 1).length = 1 := by
  with_unfolding_all decide

/-- C2 witness: the second issued query of the example event run is below
the doubled cap, and the example attendee run's sole query was issued at
count 0, below the target 1. -/
theorem claim_C2_witness :
    (⟨exQueryB, 1, 10⟩ : QueryLog) ∈
        evTrace exProviderE [exQueryA, exQueryB] exStart exEnd exToday 1 ∧
    (1 : Nat) < 1 * 2 ∧
    splitWs exAttName ≠ [] ∧
    (⟨quoteC :: (("Jazz Night").toList) ++ [quoteC], 0, 3⟩ : QueryLog) ∈
        atTrace exOracleA exAttName none 1 ∧
    (0 : Nat) < 1 :=
  ⟨by with_unfolding_all decide,
   claim_C2.1 exProviderE [exQueryA, exQueryB] exStart exEnd exToday 1 ⟨exQueryB, 1, 10⟩
     (by with_unfolding_all decide),
   by decide,
   by with_unfolding_all decide,
   claim_C2.2 exOracleA exAttName none 1 (by decide)
     ⟨quoteC :: (("Jazz Night").toList) ++ [quoteC], 0, 3⟩
     (by with_unfolding_all decide)⟩

/-- C3.  In every returned event sequence the deduplication keys (lowercased
punctuation-stripped whitespace-collapsed name, joined to the first
whitespace token of the display date, or `"nodate"` for an empty date) are
pairwise distinct; and the accumulation is exactly first-seen-kept
deduplication of the date-accepted record stream, so of two records with
equal keys the first-seen one is kept. -/
theorem claim_C3 (P : EvProvider) (queries : List (List Char))
    (sd ed td : PyDateTime) (n : Nat) :
    ((discoverEvents P queries sd ed td n).map createEventKey).Nodup ∧
    collectedEvents P queries sd ed td n =
      (keepFirstByKeyS [] (evAccepted P queries sd ed td n)).1 := by
  refine ⟨?_, collectedEvents_eq P queries sd ed td n⟩
  have h1 : (((collectedEvents P queries sd ed td n).map updateHype).map
      createEventKey).Nodup := by
    rw [List.map_map]
    have : (createEventKey ∘ updateHype) = createEventKey :=
      funext createEventKey_updateHype
    rw [this]
    exact collectedEvents_nodup_keys P queries sd ed td n
  have h2 : ((sortDesc (fun e : ResearchEvent => e.hype_score)
      ((collectedEvents P queries sd ed td n).map updateHype)).map
      createEventKey).Nodup :=
    (((sortDesc_perm (fun e : ResearchEvent => e.hype_score) _).map
      createEventKey).nodup_iff).mpr h1
  unfold discoverEvents scoreEventsByHype
  rw [List.map_take]
  exact h2.sublist (List.take_sublist _ _)

/-- C4.  Every returned sequence is in non-increasing score order (hype for
events, relevance for attendees), and the sort is stable: for every score
value, the subsequence of the sorted accumulation carrying that score is in
exactly the order in which those items were accumulated. -/
theorem claim_C4 :
    (∀ (P : EvProvider) (queries : List (List Char)) (sd ed td : PyDateTime) (n : Nat),
      (discoverEvents P queries sd ed td n).Pairwise
        (fun a b => b.hype_score ≤ a.hype_score) ∧
      ∀ c : ℚ,
        (scoreEventsByHype (collectedEvents P queries sd ed td n)).filter
            (fun e => decide (e.hype_score = c)) =
          ((collectedEvents P queries sd ed td n).map updateHype).filter
            (fun e => decide (e.hype_score = c))) ∧
    (∀ (tw : AtOracle) (en : List Char) (ed : Option (List Char)) (n : Nat),
      (discoverAttendees tw en ed n).Pairwise
        (fun a b => b.relevance_score ≤ a.relevance_score) ∧
      ∀ c : ℚ,
        (guaranteedFindAttendees tw en ed n).filter
            (fun a => decide (a.relevance_score = c)) =
          (collectedAttendees tw en ed n).filter
            (fun a => decide (a.relevance_score = c))) := by
  constructor
  · intro P queries sd ed td n
    constructor
    · unfold discoverEvents scoreEventsByHype
      exact (sortDesc_pairwise (fun e : ResearchEvent => e.hype_score) _).sublist
        (List.take_sublist _ _)
    · intro c
      unfold scoreEventsByHype
      exact sortDesc_stable (fun e : ResearchEvent => e.hype_score) c _
  · intro tw en ed n
    constructor
    · unfold discoverAttendees
      split
      · simp
      · unfold guaranteedFindAttendees
        exact (sortDesc_pairwise (fun a : ResearchAttendee => a.relevance_score) _).sublist
          (List.take_sublist _ _)
    · intro c
      unfold guaranteedFindAttendees
      exact sortDesc_stable (fun a : ResearchAttendee => a.relevance_score) c _

/-- C5.  Every returned event's hype score and every returned attendee's
relevance score lies in `[0, 1]`, and the two scoring functions themselves
are bounded by `[0, 1]` on all inputs. -/
theorem claim_C5 :
    (∀ (P : EvProvider) (queries : List (List Char)) (sd ed td : PyDateTime) (n : Nat),
      ∀ e ∈ discoverEvents P queries sd ed td n,
        0 ≤ e.hype_score ∧ e.hype_score ≤ 1) ∧
    (∀ (tw : AtOracle) (en : List Char) (ed : Option (List Char)) (n : Nat),
      ∀ a ∈ discoverAttendees tw en ed n,
        0 ≤ a.relevance_score ∧ a.relevance_score ≤ 1) ∧
    (∀ e : ResearchEvent, 0 ≤ calculateHypeScore e ∧ calculateHypeScore e ≤ 1) ∧
    (∀ tweetText eventName : List Char,
      0 ≤ calculateRelevanceScoreFast tweetText eventName ∧
        calculateRelevanceScoreFast tweetText eventName ≤ 1) := by
  refine ⟨?_, ?_, hypeScore_bounds, relevanceScore_bounds⟩
  · intro P queries sd ed td n e he
    rcases discoverEvents_mem P queries sd ed td n e he with ⟨e0, _, rfl⟩
    exact hypeScore_bounds e0
  · intro tw en ed n a ha
    exact atProduced_score tw en ed n a
      (collectedAttendees_subset_produced tw en ed n a
        (discoverAttendees_mem tw en ed n a ha))

/-- C5 witness: the scores of the items returned by the example runs are in
`[0, 1]`. -/
theorem claim_C5_witness :
    (0 ≤ (updateHype exEventRecord).hype_score ∧
      (updateHype exEventRecord).hype_score ≤ 1) ∧
    (0 ≤ (buildAttendee exUser exTweet (9/10)).relevance_score ∧
      (buildAttendee exUser exTweet (9/10)).relevance_score ≤ 1) :=
  ⟨claim_C5.1 exProviderE [exQueryA, exQueryB] exStart exEnd exToday 1
      (updateHype exEventRecord) (by with_unfolding_all decide),
   claim_C5.2.1 exOracleA exAttName none 1
      (buildAttendee exUser exTweet (9/10)) (by with_unfolding_all decide)⟩

/-- C6.  From a fresh limiter with the clock held at any instant `t`, each
of the first 60 search acquisitions is allowed and the 61st is denied; once
the clock passes the window's reset instant `t + 15` minutes, the next
acquisition is allowed and the remaining count equals capacity minus one
(59), with a fresh reset instant one window ahead. -/
theorem claim_C6 (t : ℚ) :
    (searchCallsAt t 60).2 = List.replicate 60 true ∧
    (checkRateLimit (searchCallsAt t 60).1 searchRecentKey t).1 = false ∧
    ∀ t2 : ℚ, t + 15 < t2 →
      (checkRateLimit (searchCallsAt t 60).1 searchRecentKey t2).1 = true ∧
      lookupEp (checkRateLimit (searchCallsAt t 60).1 searchRecentKey t2).2
          searchRecentKey = some ⟨60, 59, some (t2 + 15), 15⟩ := by
  have hst := searchCallsAt_closed t 60 (by omega) (by omega)
  refine ⟨by rw [hst], ?_, ?_⟩
  · rw [hst]
    exact checkRateLimit_denied t
  · intro t2 h2
    rw [hst]
    dsimp only
    rw [checkRateLimit_reset t t2 h2]
    exact ⟨rfl, rfl⟩

/-- C6 witness: the scenario at `t = 0` with the reset probed at `t2 = 16`
minutes. -/
theorem claim_C6_witness :
    (searchCallsAt 0 60).2 = List.replicate 60 true ∧
    (checkRateLimit (searchCallsAt 0 60).1 searchRecentKey 0).1 = false ∧
    (checkRateLimit (searchCallsAt 0 60).1 searchRecentKey 16).1 = true ∧
    lookupEp (checkRateLimit (searchCallsAt 0 60).1 searchRecentKey 16).2
        searchRecentKey = some ⟨60, 59, some (16 + 15), 15⟩ :=
  ⟨(claim_C6 0).1, (claim_C6 0).2.1,
   ((claim_C6 0).2.2 16 (by norm_num)).1,
   ((claim_C6 0).2.2 16 (by norm_num)).2⟩

/-- C9.  An acquisition on an endpoint the limiter has no configured window
for is always allowed and leaves the whole state — every configured
window's remaining count and reset instant — untouched. -/
theorem claim_C9 (st : RLState) (ep : String) (t : ℚ)
    (h : lookupEp st ep = none) :
    checkRateLimit st ep t = (true, st) := by
  unfold checkRateLimit
  rw [h]

/-- C9 witness: a fresh limiter asked about an unconfigured endpoint. -/
theorem claim_C9_witness :
    lookupEp setupAdvancedLimits (("user_timeline")) = none ∧
    checkRateLimit setupAdvancedLimits (("user_timeline")) 3 =
      (true, setupAdvancedLimits) :=
  ⟨by decide, claim_C9 setupAdvancedLimits (("user_timeline")) 3 (by decide)⟩

/-- C7 (amended).  For a non-empty date string whose stripped form contains
no comma (a comma triggers preprocessing that inspects only the segment
after the first comma and can discard the month and day), whose first month
token in the parser's recognition order is `m`, and whose first digit run
starts with the 1–2 digit number `d` — with `(m, d)` a valid calendar date
in both the current and the next year — the parser yields the date `(m, d)`
in the current year, advancing to the next year exactly when that date is
already past the clock.  Consequently, with the clock at 2024-11-01 and the
range 2024-11-01 … 2024-11-30, a record dated `"Nov 15"` is accepted, one
dated `"Dec 1"` is rejected, and an unparseable `"TBD"` is rejected. -/
theorem claim_C7 :
    (∀ (today : PyDateTime) (s : List Char) (m d : Nat),
      s ≠ [] →
      containsL (stripL s) [','] = false →
      findMonth (toLowerL (stripL s)) = some m →
      firstDigits (stripL s) = some d →
      validDate today.year m d = true →
      validDate (today.year + 1) m d = true →
      parseDateString today s =
        some (if dtLt ⟨today.year, m, d, 0⟩ today
              then ⟨today.year + 1, m, d, 0⟩ else ⟨today.year, m, d, 0⟩)) ∧
    (dateAcceptB ⟨2024, 11, 1, 0⟩ ⟨2024, 11, 30, 0⟩ ⟨2024, 11, 1, 0⟩
        (("Nov 15").toList) = true ∧
      dateAcceptB ⟨2024, 11, 1, 0⟩ ⟨2024, 11, 30, 0⟩ ⟨2024, 11, 1, 0⟩
        (("Dec 1").toList) = false ∧
      dateAcceptB ⟨2024, 11, 1, 0⟩ ⟨2024, 11, 30, 0⟩ ⟨2024, 11, 1, 0⟩
        (("TBD").toList) = false) := by
  constructor
  · intro today s m d hne hcomma hm hd hv1 hv2
    unfold parseDateString
    rw [if_neg hne]
    have hcp : commaPreprocess (stripL s) = stripL s := by
      unfold commaPreprocess
      rw [hcomma]
      simp
    rw [hcp]
    have hmk1 : mkDate today.year m d = some ⟨today.year, m, d, 0⟩ := by
      unfold mkDate; rw [if_pos hv1]
    have hmk2 : mkDate (today.year + 1) m d = some ⟨today.year + 1, m, d, 0⟩ := by
      unfold mkDate; rw [if_pos hv2]
    simp only [hm, hd, hmk1, hmk2]
    split
    · rfl
    · rfl
  · refine ⟨?_, ?_, ?_⟩ <;> decide

/-- C7 counterexample: `"15 Nov, say"` contains the month token `nov` and
the 1–2 digit day 15, yet the parser returns no date at all — the comma
preprocessing keeps only `"say"`, which holds no month token — where the
claim promises the calendar date Nov 15. -/
theorem claim_C7_counterexample :
    containsL (toLowerL (("15 Nov, say").toList)) (("nov").toList) = true ∧
    firstDigits (("15 Nov, say").toList) = some 15 ∧
    parseDateString ⟨2024, 11, 1, 0⟩ (("15 Nov, say").toList) = none := by
  decide

/-- C7 witness: `"Nov 15"` parsed with the clock at 2024-03-01 — all
hypotheses hold and the parser keeps the current year, since Nov 15 is
still ahead. -/
theorem claim_C7_witness :
    ((("Nov 15").toList) ≠ ([] : List Char)) ∧
    containsL (stripL (("Nov 15").toList)) [','] = false ∧
    findMonth (toLowerL (stripL (("Nov 15").toList))) = some 11 ∧
    firstDigits (stripL (("Nov 15").toList)) = some 15 ∧
    parseDateString ⟨2024, 3, 1, 0⟩ (("Nov 15").toList) =
      some (if dtLt ⟨2024, 11, 15, 0⟩ ⟨2024, 3, 1, 0⟩
            then ⟨2024 + 1, 11, 15, 0⟩ else ⟨2024, 11, 15, 0⟩) :=
  ⟨by decide, by decide, by decide, by decide,
   claim_C7.1 ⟨2024, 3, 1, 0⟩ (("Nov 15").toList) 11 15
     (by decide) (by decide) (by decide) (by decide) (by decide) (by decide)⟩

/-- Unfolding of a passed validity check. -/
theorem isValidEvent_spec (e : ResearchEvent) (h : isValidEvent e = true) :
    e.event_name ≠ [] ∧ 3 ≤ (stripL e.event_name).length ∧
      toLowerL e.event_name ∉ genericNames := by
  unfold isValidEvent at h
  split at h
  · exact absurd h (by simp)
  · rename_i h1
    split at h
    · exact absurd h (by simp)
    · rename_i h2
      push_neg at h1
      exact ⟨h1.1, h1.2, h2⟩

/-- C8.  Every event in a returned sequence passed validation: its name is
non-empty, at least 3 characters after stripping, and its lowercased name is
none of the generic placeholders (`event`, `events`, `unknown`,
`unknown event`) — in particular never `"Event"` or `"events"` in any
letter case, whatever score it carries.  Invalid records are dropped inside
the fetch stage without any error path. -/
theorem claim_C8 (P : EvProvider) (queries : List (List Char))
    (sd ed td : PyDateTime) (n : Nat) :
    ∀ e ∈ discoverEvents P queries sd ed td n,
      isValidEvent e = true ∧ e.event_name ≠ [] ∧
      3 ≤ (stripL e.event_name).length ∧
      toLowerL e.event_name ∉ genericNames := by
  intro e he
  rcases discoverEvents_mem P queries sd ed td n e he with ⟨e0, he0, rfl⟩
  have hv : isValidEvent e0 = true :=
    produced_valid P queries sd ed td n e0
      (accepted_subset_produced P queries sd ed td n e0
        (collectedEvents_subset_accepted P queries sd ed td n e0 he0))
  have hv2 : isValidEvent (updateHype e0) = true := by
    rw [isValidEvent_updateHype]; exact hv
  have hs := isValidEvent_spec _ hv2
  exact ⟨hv2, hs.1, hs.2.1, hs.2.2⟩

/-- C8 witness: the event returned by the example run is valid and carries
no generic name. -/
theorem claim_C8_witness :
    isValidEvent (updateHype exEventRecord) = true ∧
    toLowerL (updateHype exEventRecord).event_name ∉ genericNames :=
  ⟨(claim_C8 exProviderE [exQueryA, exQueryB] exStart exEnd exToday 1
      (updateHype exEventRecord) (by with_unfolding_all decide)).1,
   (claim_C8 exProviderE [exQueryA, exQueryB] exStart exEnd exToday 1
      (updateHype exEventRecord) (by with_unfolding_all decide)).2.2.2⟩

/-- A whitespace split that yields no token means every character is
whitespace (and the pending token accumulator was empty). -/
theorem splitWsAux_nil (s : List Char) :
    ∀ acc, splitWsAux s acc = [] →
      acc = [] ∧ ∀ c ∈ s, c.isWhitespace = true := by
  induction s with
  | nil =>
    intro acc h
    unfold splitWsAux at h
    split at h
    · rename_i hacc
      exact ⟨List.isEmpty_iff.mp hacc, by intro c hc; simp at hc⟩
    · simp at h
  | cons c t ih =>
    intro acc h
    unfold splitWsAux at h
    split at h
    · rename_i hws
      split at h
      · rename_i hacc
        rcases ih [] h with ⟨_, hall⟩
        refine ⟨List.isEmpty_iff.mp hacc, ?_⟩
        intro x hx
        rcases List.mem_cons.mp hx with rfl | hx
        · exact hws
        · exact hall x hx
      · simp at h
    · rcases ih (c :: acc) h with ⟨hc, _⟩
      exact absurd hc (List.cons_ne_nil c acc)

/-- A name whose whitespace split is empty consists of whitespace only. -/
theorem splitWs_nil (s : List Char) (h : splitWs s = []) :
    ∀ c ∈ s, c.isWhitespace = true :=
  (splitWsAux_nil s [] h).2

/-- A whitespace-only name has no keyword candidates. -/
theorem keywordCandidates_nil_of (s : List Char) (h : splitWs s = []) :
    keywordCandidates s = [] := by
  have hall := splitWs_nil s h
  unfold keywordCandidates
  have hmap : s.map (fun c => if isWordChar c || c.isWhitespace then c else ' ') = s := by
    have hpt : ∀ c ∈ s, (if isWordChar c || c.isWhitespace then c else ' ') = id c := by
      intro c hc
      simp [hall c hc]
    conv_rhs => rw [← List.map_id s]
    exact List.map_congr_left hpt
  rw [hmap, h]
  rfl

/-- Every keyword candidate is the lowercasing of some token. -/
theorem keywordCandidates_lower (en : List Char) :
    ∀ k ∈ keywordCandidates en, ∃ w0, k = toLowerL w0 := by
  intro k hk
  unfold keywordCandidates at hk
  rcases List.mem_filterMap.mp hk with ⟨w0, _, hcond⟩
  split at hcond
  · exact ⟨w0, (Option.some_inj.mp hcond).symm⟩
  · simp at hcond

/-- C10 (amended).  For every event name with at least one whitespace
token, keyword extraction returns without raising, its result is non-empty
and every returned keyword is a lowercased token; when the candidate
comprehension is empty the fallback is the lowercased first token of the
original name.  Extraction raises (`none`) exactly for names with no
whitespace token at all — the empty and whitespace-only names.  A
punctuation-only name such as `"!!!"` has a whitespace token, so it does
not raise: it returns that token lowercased (see the counterexample). -/
theorem claim_C10 :
    (∀ (en w : List Char) (ws : List (List Char)), splitWs en = w :: ws →
      ∃ l, extractKeywords en = some l ∧ l ≠ [] ∧
        (∀ k ∈ l, ∃ w0, k = toLowerL w0) ∧
        (keywordCandidates en = [] → l = [toLowerL w])) ∧
    (∀ en : List Char, splitWs en = [] → extractKeywords en = none) := by
  constructor
  · intro en w ws hsp
    unfold extractKeywords
    cases hkc : keywordCandidates en with
    | nil =>
      rw [hsp]
      refine ⟨[toLowerL w], rfl, by simp, ?_, fun _ => rfl⟩
      intro k hk
      rw [List.mem_singleton] at hk
      exact ⟨w, hk⟩
    | cons k1 kt =>
      refine ⟨k1 :: kt, rfl, by simp, ?_, ?_⟩
      · intro k hk
        exact keywordCandidates_lower en k (hkc ▸ hk)
      · intro hc
        exact absurd hc (List.cons_ne_nil k1 kt)
  · intro en h
    unfold extractKeywords
    rw [keywordCandidates_nil_of en h, h]

/-- C10 counterexample: the punctuation-only name `"!!!"` (no alphanumeric
or whitespace character at all) does not raise — extraction returns the
token itself, lowercased — where the claim said the fallback raises. -/
theorem claim_C10_counterexample :
    extractKeywords (("!!!").toList) = some [("!!!").toList] ∧
    (("!!!").toList).all (fun c => !(c.isAlphanum || c.isWhitespace)) = true := by
  decide

/-- C10 witness: extraction on `"Rock the Park"`. -/
theorem claim_C10_witness :
    splitWs (("Rock the Park").toList) =
      (("Rock").toList) :: [("the").toList, ("Park").toList] ∧
    (∃ l, extractKeywords (("Rock the Park").toList) = some l ∧ l ≠ [] ∧
      (∀ k ∈ l, ∃ w0, k = toLowerL w0) ∧
      (keywordCandidates (("Rock the Park").toList) = [] →
        l = [toLowerL (("Rock").toList)])) :=
  ⟨by decide,
   claim_C10.1 (("Rock the Park").toList) (("Rock").toList)
     [("the").toList, ("Park").toList] (by decide)⟩
